import Mathlib

/-!
Verification of the document/prover synchronization engine of
`autoload/coqtail.py` against its specification.

The embedding represents a document (a vim buffer) as a list of lines,
each line a list of characters.  Python string primitives (`find`,
`lstrip`, `rstrip`, slicing, `split`) are modelled exactly, including the
`-1` convention of `find` and the clamping behaviour of slices.  The
mutually recursive scanner functions (`_find_dot_after`, `_skip_block`,
and the comment-skipping loop of `_find_next_chunk`) are made total with
an explicit fuel argument; exhausted fuel yields `none`, and theorems
about results of shape `some p` hold for every fuel.
-/

/-- A zero-based (line, column) document position, ordered lexicographically
exactly like a Python pair of ints. -/
abbrev Pos := Nat × Nat

/-- Strict lexicographic order on positions (Python tuple `<`). -/
def posLt (p q : Pos) : Prop := p.1 < q.1 ∨ (p.1 = q.1 ∧ p.2 < q.2)

/-- Lexicographic order on positions (Python tuple `<=`). -/
def posLe (p q : Pos) : Prop := p.1 < q.1 ∨ (p.1 = q.1 ∧ p.2 ≤ q.2)

instance (p q : Pos) : Decidable (posLt p q) := by unfold posLt; infer_instance

instance (p q : Pos) : Decidable (posLe p q) := by unfold posLe; infer_instance

/-- A document: the list of lines of the current buffer. -/
abbrev Doc := List (List Char)

/-- The characters Python's `str.strip` family treats as whitespace. -/
def isPySpace (c : Char) : Bool :=
  c = ' ' ∨ c = '\t' ∨ c = '\n' ∨ c = '\r' ∨ c = '\x0b' ∨ c = '\x0c'

/-- Python `str.lstrip()`: drop leading whitespace. -/
def pyLstrip (l : List Char) : List Char := l.dropWhile isPySpace

/-- Python `str.rstrip()`: drop trailing whitespace. -/
def pyRstrip (l : List Char) : List Char := (l.reverse.dropWhile isPySpace).reverse

/-- First index at which `pat` occurs in a list, if any. -/
def findSubNat (pat : List Char) : List Char → Option Nat
  | [] => if List.isPrefixOf pat [] then some 0 else none
  | c :: t =>
      if List.isPrefixOf pat (c :: t) then some 0
      else (findSubNat pat t).map (· + 1)

/-- Python `s.find(pat)`: first index of an occurrence, `-1` when absent. -/
def pyFind (l pat : List Char) : Int :=
  match findSubNat pat l with
  | some n => (n : Int)
  | none => -1

/-- Python `l[:stop]` with a possibly negative `stop`. -/
def pySliceUpto {α : Type} (l : List α) (stop : Int) : List α :=
  l.take (if stop < 0 then max ((l.length : Int) + stop) 0 else min stop (l.length : Int)).toNat

/-- Python `s.split(sep)` for a one-character separator: always returns at
least one (possibly empty) fragment. -/
def pySplit (sep : Char) : List Char → List (List Char)
  | [] => [[]]
  | c :: t =>
      match pySplit sep t with
      | [] => [[]]
      | h :: r => if c = sep then [] :: h :: r else (c :: h) :: r

/-- Line `i` of a document (`buf[i]`, used only under a bounds check). -/
def lineAt (buf : Doc) (i : Nat) : List Char := buf.getD i []

/-- The bullet characters recognized by `_find_next_chunk`. -/
def bullets : List Char := ['{', '}', '-', '+', '*']

/-- The leading-whitespace-skipping `for` loop of `_find_next_chunk`:
walk the lines from `line` on (the list argument is `buf[line:]`), with
column `col` on the first line and `0` afterwards, and return the position
of the first non-whitespace character, or `none` if only whitespace
remains (the `for ... else: return None`). -/
def skipWSAux : List (List Char) → Nat → Nat → Option Pos
  | [], _, _ => none
  | l :: rest, line, col =>
      let tail := l.drop col
      let first_line := pyLstrip tail
      if pyRstrip first_line ≠ [] then
        some (line, col + (tail.length - first_line.length))
      else skipWSAux rest (line + 1) 0

/-- The `blk_start` computation of `_skip_block`: `line.find(sstr)` when a
start token is given, `-1` otherwise. -/
def optFind (sstr : Option (List Char)) (line : List Char) : Int :=
  match sstr with
  | some s => pyFind line s
  | none => -1

/-- `_skip_block(sline, scol, estr, sstr, nesting)`: skip the next block
delimited by `sstr`/`estr`, tracking nesting, returning the position just
after the closing token. -/
def _skip_block : Nat → Doc → Nat → Nat → List Char → Option (List Char) → Nat → Option Pos
  | 0, _, _, _, _, _, _ => none
  | fuel + 1, buf, sline, scol, estr, sstr, nesting =>
      if nesting = 0 then some (sline, scol)
      else if buf.length ≤ sline then none
      else
        let line := (lineAt buf sline).drop scol
        let blk_end := pyFind line estr
        let blk_start := optFind sstr line
        if blk_end ≠ -1 ∧ (blk_end < blk_start ∨ blk_start = -1) then
          _skip_block fuel buf sline (scol + blk_end.toNat + estr.length) estr sstr (nesting - 1)
        else if blk_start ≠ -1 then
          _skip_block fuel buf sline (scol + blk_start.toNat + ((sstr.getD []).length)) estr sstr (nesting + 1)
        else
          _skip_block fuel buf (sline + 1) 0 estr sstr nesting

/-- `_skip_comment(sline, scol)`: skip a `(* *)` block (nesting aware). -/
def _skip_comment (fuel : Nat) (buf : Doc) (sline scol : Nat) : Option Pos :=
  _skip_block fuel buf sline scol ['*', ')'] (some ['(', '*']) 1

/-- `_skip_str(sline, scol)`: skip to the closing double quote. -/
def _skip_str (fuel : Nat) (buf : Doc) (sline scol : Nat) : Option Pos :=
  _skip_block fuel buf sline scol ['"'] none 1

/-- `_find_dot_after(sline, scol)`: find the terminating `'.'` after a
point, skipping comments and string literals found before it. -/
def _find_dot_after : Nat → Doc → Nat → Nat → Option Pos
  | 0, _, _, _ => none
  | fuel + 1, buf, sline, scol =>
      if buf.length ≤ sline then none
      else
        let line := (lineAt buf sline).drop scol
        let dot_pos := pyFind line ['.']
        let com_pos := pyFind line ['(', '*']
        let str_pos := pyFind line ['"']
        if com_pos = -1 ∧ dot_pos = -1 ∧ str_pos = -1 then
          _find_dot_after fuel buf (sline + 1) 0
        else if dot_pos = -1 ∨ (0 ≤ com_pos ∧ com_pos < dot_pos) ∨ (0 ≤ str_pos ∧ str_pos < dot_pos) then
          if str_pos = -1 ∨ (0 ≤ com_pos ∧ com_pos < str_pos) then
            match _skip_comment fuel buf sline (scol + com_pos.toNat + 2) with
            | none => none
            | some p => _find_dot_after fuel buf p.1 p.2
          else
            match _skip_str fuel buf sline (scol + str_pos.toNat + 1) with
            | none => none
            | some p => _find_dot_after fuel buf p.1 p.2
        else if (line.drop dot_pos.toNat).take 2 = ['.'] ∨ (line.drop dot_pos.toNat).take 2 = ['.', ' '] then
          some (sline, scol + dot_pos.toNat)
        else if (line.drop dot_pos.toNat).take 3 = ['.', '.', '.'] then
          some (sline, scol + dot_pos.toNat + 2)
        else
          _find_dot_after fuel buf sline (scol + dot_pos.toNat + 1)

/-- The `while True` loop of `_find_next_chunk`: skip whitespace, then skip
a leading comment and repeat, until the first character of the chunk is
found.  (Python breaks out of the loop holding `line`, `col` and
`first_line`; `first_line` equals `buf[line][col:].lstrip()` and is
recomputed from `(line, col)` by the caller.) -/
def chunk_head : Nat → Doc → Nat → Nat → Option Pos
  | 0, _, _, _ => none
  | fuel + 1, buf, sline, scol =>
      match skipWSAux (buf.drop sline) sline scol with
      | none => none
      | some (line, col) =>
          let first_line := pyLstrip ((lineAt buf line).drop col)
          if first_line.take 2 = ['(', '*'] then
            match _skip_comment fuel buf line (col + 2) with
            | none => none
            | some p => chunk_head fuel buf p.1 p.2
          else some (line, col)

/-- `_find_next_chunk(sline, scol)`: position of the end of the next chunk
to send, or `none`. -/
def _find_next_chunk (fuel : Nat) (buf : Doc) (sline scol : Nat) : Option Pos :=
  match chunk_head fuel buf sline scol with
  | none => none
  | some (line, col) =>
      let first_line := pyLstrip ((lineAt buf line).drop col)
      match first_line with
      | [] => none
      | ch :: _ => if ch ∈ bullets then some (line, col + 1) else _find_dot_after fuel buf line col

/-- Helper turning a string literal into a document line. -/
def strL (s : String) : List Char := s.data

/-- `_get_message_range(after)`: the next chunk to send after a point,
as a `{'start': after, 'stop': end_pos}` record. -/
structure ChunkRange where
  start : Pos
  stop : Pos
deriving DecidableEq, Repr

def _get_message_range (fuel : Nat) (buf : Doc) (after : Pos) : Option ChunkRange :=
  match _find_next_chunk fuel buf after.1 after.2 with
  | none => none
  | some end_pos => some ⟨after, end_pos⟩

/-- The line-clipping loop of `_between`: `idx` enumerates `buf[sline:eline+1]`,
`lastIdx = eline - sline`, `scol`/`ecol` are the start and end columns. -/
def betweenGo : List (List Char) → Nat → Nat → Nat → Nat → List (List Char)
  | [], _, _, _, _ => []
  | line :: rest, idx, scol, lastIdx, ecol =>
      let lcol := if idx = 0 then scol else 0
      let rcol := if idx = lastIdx then ecol + 1 else line.length
      ((line.take rcol).drop lcol) :: betweenGo rest (idx + 1) scol lastIdx ecol

/-- `_between(start, end)` as the list of clipped lines. -/
def betweenLines (buf : Doc) (s e : Pos) : List (List Char) :=
  betweenGo ((buf.drop s.1).take (e.1 + 1 - s.1)) 0 s.2 (e.1 - s.1) e.2

/-- Python `'\n'.join(lines)`. -/
def joinNl : List (List Char) → List Char
  | [] => []
  | [l] => l
  | l :: rest => l ++ '\n' :: joinNl rest

/-- `_between(start, end)`: the inclusive document slice as one string. -/
def _between (buf : Doc) (s e : Pos) : List Char := joinNl (betweenLines buf s e)

/-- `_pos_from_offset(col, msg, offset)`: line and column of a character
offset into a dispatched message. -/
def _pos_from_offset (col : Nat) (msg : List Char) (offset : Int) : Pos :=
  let msg' := pySliceUpto msg offset
  let lines := pySplit '\n' msg'
  let line := lines.length - 1
  let col' := (lines.getLastD []).length + (if line = 0 then col else 0)
  (line, col')

/-- The error-location computation of the rejection branch of
`Coqtail.send_until_fail`: either the whole unit (sentinel offsets
`(-1, -1)`) or the offsets translated through `_pos_from_offset`. -/
def computeError (start stop : Pos) (message : List Char) (err_loc : Int × Int) : Pos × Pos :=
  let loc_s := err_loc.1
  let loc_e := err_loc.2
  if loc_s = -1 ∧ loc_e = -1 then (start, stop)
  else
    let line := start.1
    let col := start.2
    let ps := _pos_from_offset col message loc_s
    let pe := _pos_from_offset col message loc_e
    ((line + ps.1, ps.2), (line + pe.1, pe.2))

/-- Result of one `coqtop.dispatch` call: success flag and reported error
offsets (the displayed message is irrelevant to the engine state). -/
structure DispatchR where
  success : Bool
  err_loc : Int × Int

/-- State touched by `send_until_fail`: the checkpoint stack, the send
queue and the recorded error location (display fields are omitted). -/
structure SendState where
  endpoints : List Pos
  send_queue : List ChunkRange
  error_at : Option (Pos × Pos)
deriving DecidableEq

/-- The drain loop of `Coqtail.send_until_fail`.  The prover is modelled
as an oracle indexed by the dispatch call number `n` (the call sequence of
the synchronous interface); on success the unit's stop position plus one
column is pushed, on rejection the queue is cleared, the error location is
recorded and draining stops.  The transport-exception path (`CoqtopError`)
is outside the oracle model. -/
def send_until_fail_go (buf : Doc) (oracle : Nat → DispatchR) :
    List ChunkRange → Nat → List Pos → Option (Pos × Pos) → SendState
  | [], _, endpoints, error_at => ⟨endpoints, [], error_at⟩
  | to_send :: rest, n, endpoints, error_at =>
      let message := _between buf to_send.start to_send.stop
      let r := oracle n
      if r.success then
        send_until_fail_go buf oracle rest (n + 1)
          (endpoints ++ [(to_send.stop.1, to_send.stop.2 + 1)]) error_at
      else
        ⟨endpoints, [], some (computeError to_send.start to_send.stop message r.err_loc)⟩

def send_until_fail (buf : Doc) (oracle : Nat → DispatchR) (st : SendState) : SendState :=
  send_until_fail_go buf oracle st.send_queue 0 st.endpoints st.error_at

/-- `Coqtail.rewind(steps)`: pop `steps + extra_steps` checkpoints via the
Python slice `endpoints[:-(steps + extra_steps)]`; no-ops on `steps < 1`,
an empty stack, or an unsuccessful prover response. -/
def rewindEndpoints (endpoints : List Pos) (steps : Int) (success : Bool) (extra_steps : Int) :
    List Pos :=
  if steps < 1 ∨ endpoints = [] then endpoints
  else if success then pySliceUpto endpoints (-(steps + extra_steps))
  else endpoints

/-- `Coqtail.rewind_to(line, col)`: retract every checkpoint strictly
after `(line, col)`. -/
def rewind_to (endpoints : List Pos) (line col : Nat) (success : Bool) (extra_steps : Int) :
    List Pos :=
  let steps_too_far := (endpoints.countP (fun pos => decide (posLt (line, col) pos)))
  rewindEndpoints endpoints steps_too_far success extra_steps

/-- The frontier: last checkpoint, or `(0, 0)` for an empty stack. -/
def lastPos (endpoints : List Pos) : Pos := endpoints.getLastD (0, 0)

/-- `Coqtail.next()` (advance one step), minus the leading `sync()` call,
which the reachability relation models as a separate preceding operation. -/
def op_next (fuel : Nat) (buf : Doc) (oracle : Nat → DispatchR) (endpoints : List Pos) :
    List Pos :=
  let p := lastPos endpoints
  match _get_message_range fuel buf p with
  | none => endpoints
  | some to_send => (send_until_fail_go buf oracle [to_send] 0 endpoints none).endpoints

/-- The queue-building `while` loop of `Coqtail.to_cursor`: collect chunks
whose stop position is at or before the cursor.  `lfuel` bounds the number
of loop iterations (any real run is reproduced by a large enough bound). -/
def chunk_chain (fuel : Nat) (buf : Doc) : Nat → Pos → Pos → List ChunkRange
  | 0, _, _ => []
  | lfuel + 1, p, cursor =>
      match _get_message_range fuel buf p with
      | none => []
      | some to_send =>
          if posLe to_send.stop cursor then
            to_send :: chunk_chain fuel buf lfuel (to_send.stop.1, to_send.stop.2 + 1) cursor
          else []

/-- `Coqtail.to_cursor()`, minus the leading `sync()`: rewind when the
cursor `(cline, ccol)` (1-based line, as vim reports it) is before the
frontier, otherwise queue chunks up to the cursor and drain. -/
def op_to_cursor (fuel lfuel : Nat) (buf : Doc) (oracle : Nat → DispatchR)
    (cline ccol : Nat) (success : Bool) (extra_steps : Int) (endpoints : List Pos) :
    List Pos :=
  let line := (lastPos endpoints).1
  let col := (lastPos endpoints).2
  if cline - 1 < line ∨ (cline - 1 = line ∧ ccol < col) then
    rewind_to endpoints (cline - 1) (ccol + 1) success extra_steps
  else
    (send_until_fail_go buf oracle (chunk_chain fuel buf lfuel (line, col) (cline - 1, ccol))
      0 endpoints none).endpoints

/-- Checkpoint stacks reachable from the empty initial state by any
sequence of engine operations: `_reset` (initialization, prover restart,
or the buffer-replaced branch of `sync`), `next`, `to_cursor`, `rewind`,
and `rewind_to` (also covering `to_top` and the edited-buffer branch of
`sync`).  Every constructor quantifies over the document, the prover
responses and the scanner fuel, so any real interleaving (including edits
between operations) is an instance. -/
inductive Reach : List Pos → Prop
  | init : Reach []
  | reset (eps) : Reach eps → Reach []
  | next (fuel buf oracle eps) : Reach eps → Reach (op_next fuel buf oracle eps)
  | to_cursor (fuel lfuel buf oracle cline ccol success extra eps) :
      Reach eps → Reach (op_to_cursor fuel lfuel buf oracle cline ccol success extra eps)
  | rewind (steps success extra eps) :
      Reach eps → Reach (rewindEndpoints eps steps success extra)
  | rewind_to (line col success extra eps) :
      Reach eps → Reach (rewind_to eps line col success extra)

/-! ### Order lemmas for positions -/

theorem posLe_refl (p : Pos) : posLe p p := Or.inr ⟨rfl, Nat.le_refl _⟩

theorem posLe_trans {p q r : Pos} (h1 : posLe p q) (h2 : posLe q r) : posLe p r := by
  rcases h1 with h | ⟨e, h⟩ <;> rcases h2 with h' | ⟨e', h'⟩
  · exact Or.inl (Nat.lt_trans h h')
  · exact Or.inl (e' ▸ h)
  · exact Or.inl (e ▸ h')
  · exact Or.inr ⟨e.trans e', Nat.le_trans h h'⟩

theorem posLe_of_posLt {p q : Pos} (h : posLt p q) : posLe p q := by
  rcases h with h | ⟨e, h⟩
  · exact Or.inl h
  · exact Or.inr ⟨e, Nat.le_of_lt h⟩

theorem posLt_of_posLe_of_posLt {p q r : Pos} (h1 : posLe p q) (h2 : posLt q r) : posLt p r := by
  rcases h1 with h | ⟨e, h⟩ <;> rcases h2 with h' | ⟨e', h'⟩
  · exact Or.inl (Nat.lt_trans h h')
  · exact Or.inl (e' ▸ h)
  · exact Or.inl (e ▸ h')
  · exact Or.inr ⟨e.trans e', Nat.lt_of_le_of_lt h h'⟩

theorem posLt_of_posLt_of_posLe {p q r : Pos} (h1 : posLt p q) (h2 : posLe q r) : posLt p r := by
  rcases h1 with h | ⟨e, h⟩ <;> rcases h2 with h' | ⟨e', h'⟩
  · exact Or.inl (Nat.lt_trans h h')
  · exact Or.inl (e' ▸ h)
  · exact Or.inl (e ▸ h')
  · exact Or.inr ⟨e.trans e', Nat.lt_of_lt_of_le h h'⟩

theorem posLe_col {l c : Nat} (k : Nat) : posLe (l, c) (l, c + k) :=
  Or.inr ⟨rfl, Nat.le_add_right c k⟩

theorem posLe_nextLine {l c c' : Nat} : posLe (l, c) (l + 1, c') :=
  Or.inl (Nat.lt_succ_self l)

theorem posLt_colSucc {l c : Nat} (k : Nat) : posLt (l, c) (l, c + k + 1) :=
  Or.inr ⟨rfl, Nat.lt_succ_of_le (Nat.le_add_right c k)⟩


/-! ### Monotonicity of the scanner: every returned position is at or
after the position scanned from. -/

theorem skipWSAux_mono :
    ∀ (ls : List (List Char)) (line col : Nat) (q : Pos),
      skipWSAux ls line col = some q → posLe (line, col) q := by
  intro ls
  induction ls with
  | nil => intro line col q h; simp [skipWSAux] at h
  | cons hd tl ih =>
      intro line col q h
      simp only [skipWSAux] at h
      split at h
      · injection h with h; subst h; exact posLe_col _
      · exact posLe_trans posLe_nextLine (ih (line + 1) 0 q h)

theorem _skip_block_mono :
    ∀ (fuel : Nat) (buf : Doc) (sline scol : Nat) (estr : List Char)
      (sstr : Option (List Char)) (nesting : Nat) (q : Pos),
      _skip_block fuel buf sline scol estr sstr nesting = some q →
        posLe (sline, scol) q := by
  intro fuel
  induction fuel with
  | zero => intro buf sline scol estr sstr nesting q h; simp [_skip_block] at h
  | succ fuel ih =>
      intro buf sline scol estr sstr nesting q h
      simp only [_skip_block] at h
      split at h
      · injection h with h; subst h; exact posLe_refl _
      · split at h
        · exact absurd h (by simp)
        · split at h
          · refine posLe_trans ?_ (ih _ _ _ _ _ _ _ h)
            exact Or.inr ⟨rfl, by omega⟩
          · split at h
            · refine posLe_trans ?_ (ih _ _ _ _ _ _ _ h)
              exact Or.inr ⟨rfl, by omega⟩
            · exact posLe_trans posLe_nextLine (ih _ _ _ _ _ _ _ h)

theorem _skip_comment_mono (fuel : Nat) (buf : Doc) (sline scol : Nat) (q : Pos)
    (h : _skip_comment fuel buf sline scol = some q) : posLe (sline, scol) q :=
  _skip_block_mono fuel buf sline scol _ _ 1 q h

theorem _skip_str_mono (fuel : Nat) (buf : Doc) (sline scol : Nat) (q : Pos)
    (h : _skip_str fuel buf sline scol = some q) : posLe (sline, scol) q :=
  _skip_block_mono fuel buf sline scol _ _ 1 q h

theorem _find_dot_after_mono :
    ∀ (fuel : Nat) (buf : Doc) (sline scol : Nat) (q : Pos),
      _find_dot_after fuel buf sline scol = some q → posLe (sline, scol) q := by
  intro fuel
  induction fuel with
  | zero => intro buf sline scol q h; simp [_find_dot_after] at h
  | succ fuel ih =>
      intro buf sline scol q h
      simp only [_find_dot_after] at h
      split at h
      · exact absurd h (by simp)
      · split at h
        · exact posLe_trans posLe_nextLine (ih _ _ _ _ h)
        · split at h
          · split at h
            · split at h
              · exact absurd h (by simp)
              · rename_i p hskip
                refine posLe_trans ?_
                  (posLe_trans (_skip_comment_mono _ _ _ _ _ hskip) (ih _ _ _ _ h))
                exact Or.inr ⟨rfl, by omega⟩
            · split at h
              · exact absurd h (by simp)
              · rename_i p hskip
                refine posLe_trans ?_
                  (posLe_trans (_skip_str_mono _ _ _ _ _ hskip) (ih _ _ _ _ h))
                exact Or.inr ⟨rfl, by omega⟩
          · split at h
            · injection h with h; subst h; exact Or.inr ⟨rfl, by omega⟩
            · split at h
              · injection h with h; subst h; exact Or.inr ⟨rfl, by omega⟩
              · refine posLe_trans ?_ (ih _ _ _ _ h)
                exact Or.inr ⟨rfl, by omega⟩

theorem chunk_head_mono :
    ∀ (fuel : Nat) (buf : Doc) (sline scol : Nat) (q : Pos),
      chunk_head fuel buf sline scol = some q → posLe (sline, scol) q := by
  intro fuel
  induction fuel with
  | zero => intro buf sline scol q h; simp [chunk_head] at h
  | succ fuel ih =>
      intro buf sline scol q h
      simp only [chunk_head] at h
      split at h
      · exact absurd h (by simp)
      · rename_i w hws
        have h1 := skipWSAux_mono _ _ _ _ hws
        split at h
        · split at h
          · exact absurd h (by simp)
          · rename_i p hskip
            refine posLe_trans h1 (posLe_trans ?_
              (posLe_trans (_skip_comment_mono _ _ _ _ _ hskip) (ih _ _ _ _ h)))
            exact Or.inr ⟨rfl, by omega⟩
        · injection h with h; subst h; exact h1

theorem _find_next_chunk_mono (fuel : Nat) (buf : Doc) (sline scol : Nat) (q : Pos)
    (h : _find_next_chunk fuel buf sline scol = some q) : posLe (sline, scol) q := by
  simp only [_find_next_chunk] at h
  split at h
  · exact absurd h (by simp)
  · rename_i w hch
    have h1 := chunk_head_mono _ _ _ _ _ hch
    split at h
    · exact absurd h (by simp)
    · split at h
      · injection h with h; subst h
        exact posLe_trans h1 (Or.inr ⟨rfl, by omega⟩)
      · exact posLe_trans h1 (_find_dot_after_mono _ _ _ _ _ h)

/-! ### Claims about `Coqtail.rewind` -/

/-- C2 counterexample: with a stack of depth 1, `steps = 1` and
`extra_steps = 1`, a successful rewind removes only the 1 existing
checkpoint, not `steps + extra_steps = 2` of them, so "pops exactly
n + extra_steps checkpoints" fails as stated. -/
theorem C2_counterexample :
    rewindEndpoints [(0, 0)] 1 true 1 = [] ∧
      ¬ ([((0 : Nat), (0 : Nat))].length - (rewindEndpoints [(0, 0)] 1 true 1).length = 1 + 1) := by
  decide

/-- C2 (amended): for `1 ≤ n ≤ depth` and `extra_steps ≥ 0`, a successful
`rewind(n)` truncates the stack by exactly `min (n + extra_steps) depth`
elements from the end; consequently it removes at least `n` checkpoints
and never leaves the stack longer than before. -/
theorem C2_rewind_min (endpoints : List Pos) (n extra : Int)
    (h1 : 1 ≤ n) (h2 : n ≤ (endpoints.length : Int)) (h3 : 0 ≤ extra) :
    rewindEndpoints endpoints n true extra =
        endpoints.take (endpoints.length - min (n + extra).toNat endpoints.length) ∧
      n.toNat ≤ endpoints.length - (rewindEndpoints endpoints n true extra).length ∧
      (rewindEndpoints endpoints n true extra).length ≤ endpoints.length := by
  have hne : endpoints ≠ [] := by
    intro he
    rw [he] at h2
    simp at h2
    omega
  have hguard : ¬ (n < 1 ∨ endpoints = []) := by
    push_neg
    exact ⟨by omega, hne⟩
  have heq : rewindEndpoints endpoints n true extra =
      endpoints.take (endpoints.length - min (n + extra).toNat endpoints.length) := by
    unfold rewindEndpoints pySliceUpto
    rw [if_neg hguard, if_pos rfl, if_pos (by omega : (-(n + extra) : Int) < 0)]
    congr 1
    omega
  refine ⟨heq, ?_, ?_⟩ <;> rw [heq, List.length_take] <;> omega

/-- C2 witness: a concrete successful rewind with `n = 1`, `extra = 0` on
a stack of depth 2. -/
theorem C2_witness :
    rewindEndpoints [(0, 1), (2, 3)] 1 true 0 =
        [((0 : Nat), (1 : Nat)), (2, 3)].take
          ([((0 : Nat), (1 : Nat)), (2, 3)].length -
            min ((1 + 0 : Int)).toNat [((0 : Nat), (1 : Nat)), (2, 3)].length) ∧
      (1 : Int).toNat ≤
          [((0 : Nat), (1 : Nat)), (2, 3)].length -
            (rewindEndpoints [(0, 1), (2, 3)] 1 true 0).length ∧
      (rewindEndpoints [(0, 1), (2, 3)] 1 true 0).length ≤
        [((0 : Nat), (1 : Nat)), (2, 3)].length :=
  C2_rewind_min [(0, 1), (2, 3)] 1 0 (by decide) (by decide) (by decide)

/-- C10 (confirmed): rewinding with `n` greater than the stack depth and a
successful prover response empties the stack; the truncation removes
`min (n + extra_steps) depth = depth` elements. -/
theorem C10_over_rewind (endpoints : List Pos) (n extra : Int)
    (hne : endpoints ≠ []) (hd : (endpoints.length : Int) < n) (hextra : 0 ≤ extra) :
    rewindEndpoints endpoints n true extra = [] ∧
      min (n + extra).toNat endpoints.length = endpoints.length := by
  have h1 : (1 : Int) ≤ n := by
    have : (0 : Int) ≤ endpoints.length := by positivity
    omega
  have hguard : ¬ (n < 1 ∨ endpoints = []) := by
    push_neg
    exact ⟨by omega, hne⟩
  constructor
  · unfold rewindEndpoints pySliceUpto
    rw [if_neg hguard, if_pos rfl, if_pos (by omega : (-(n + extra) : Int) < 0)]
    have : (if (-(n + extra) : Int) < 0 then
        max ((endpoints.length : Int) + -(n + extra)) 0 else
        min (-(n + extra)) endpoints.length) = 0 := by omega
    have hz : (max ((endpoints.length : Int) + -(n + extra)) 0).toNat = 0 := by omega
    rw [hz]
    simp
  · omega

/-- C10 witness: depth 1, `n = 2`, `extra = 0`. -/
theorem C10_witness :
    rewindEndpoints [(0, 1)] 2 true 0 = [] ∧
      min ((2 + 0 : Int)).toNat [((0 : Nat), (1 : Nat))].length =
        [((0 : Nat), (1 : Nat))].length :=
  C10_over_rewind [(0, 1)] 2 0 (by decide) (by decide) (by decide)

/-! ### Claims about `Coqtail.send_until_fail` -/

/-- The checkpoint pushed for an accepted unit: its stop position with the
column incremented by one. -/
def pushPos (u : ChunkRange) : Pos := (u.stop.1, u.stop.2 + 1)

theorem sendGo_split (buf : Doc) (oracle : Nat → DispatchR) (bad : ChunkRange)
    (rest : List ChunkRange) :
    ∀ (accepted : List ChunkRange) (n : Nat) (endpoints : List Pos)
      (err : Option (Pos × Pos)),
      (∀ i, i < accepted.length → (oracle (n + i)).success = true) →
      (oracle (n + accepted.length)).success = false →
      send_until_fail_go buf oracle (accepted ++ bad :: rest) n endpoints err =
        ⟨endpoints ++ accepted.map pushPos, [],
          some (computeError bad.start bad.stop (_between buf bad.start bad.stop)
            (oracle (n + accepted.length)).err_loc)⟩ := by
  intro accepted
  induction accepted with
  | nil =>
      intro n endpoints err hacc hbad
      simp only [List.length_nil, Nat.add_zero] at hbad
      simp only [List.nil_append, send_until_fail_go]
      rw [if_neg (by simp [hbad])]
      simp
  | cons u us ih =>
      intro n endpoints err hacc hbad
      have h0 := hacc 0 (by simp)
      rw [Nat.add_zero] at h0
      simp only [List.cons_append, send_until_fail_go]
      rw [if_pos h0]
      have h2 := ih (n + 1) (endpoints ++ [(u.stop.1, u.stop.2 + 1)]) err
        (fun i hi => by
          have h3 := hacc (i + 1) (by simpa using Nat.succ_lt_succ hi)
          have h4 : n + (i + 1) = n + 1 + i := by omega
          rw [h4] at h3
          exact h3)
        (by
          have h5 : n + (u :: us).length = n + 1 + us.length := by simp; omega
          rw [h5] at hbad
          exact hbad)
      simp only [List.append_eq]
      rw [h2]
      have h6 : n + 1 + us.length = n + (u :: us).length := by simp; omega
      rw [h6]
      simp [pushPos]

/-- C1 (confirmed): if the prover accepts the first `k` units of the queue
and rejects unit `k + 1`, then after the drain exactly one checkpoint (the
unit's stop plus one column) has been appended for each accepted unit, in
order, none for the rejected one or those after it, and the send queue is
empty. -/
theorem C1_drain_atomicity (buf : Doc) (oracle : Nat → DispatchR)
    (endpoints : List Pos) (err : Option (Pos × Pos))
    (accepted : List ChunkRange) (bad : ChunkRange) (rest : List ChunkRange)
    (hacc : ∀ i, i < accepted.length → (oracle i).success = true)
    (hbad : (oracle accepted.length).success = false) :
    (send_until_fail buf oracle ⟨endpoints, accepted ++ bad :: rest, err⟩).endpoints =
        endpoints ++ accepted.map pushPos ∧
      (send_until_fail buf oracle ⟨endpoints, accepted ++ bad :: rest, err⟩).send_queue = [] := by
  have h := sendGo_split buf oracle bad rest accepted 0 endpoints err
    (fun i hi => by simpa using hacc i hi) (by simpa using hbad)
  unfold send_until_fail
  rw [h]
  exact ⟨rfl, rfl⟩

/-- C1 witness: a three-unit queue whose second unit is rejected leaves
exactly the first unit's checkpoint and an empty queue. -/
theorem C1_witness :
    (send_until_fail [strL "Goal True.", strL "xauto.", strL "Qed."]
          (fun n => if n = 0 then ⟨true, (-1, -1)⟩ else ⟨false, (-1, -1)⟩)
          ⟨[], [⟨(0, 0), (0, 9)⟩, ⟨(0, 10), (1, 5)⟩, ⟨(1, 6), (2, 3)⟩], none⟩).endpoints =
        [((0 : Nat), (10 : Nat))] ∧
      (send_until_fail [strL "Goal True.", strL "xauto.", strL "Qed."]
          (fun n => if n = 0 then ⟨true, (-1, -1)⟩ else ⟨false, (-1, -1)⟩)
          ⟨[], [⟨(0, 0), (0, 9)⟩, ⟨(0, 10), (1, 5)⟩, ⟨(1, 6), (2, 3)⟩], none⟩).send_queue = [] := by
  have h := C1_drain_atomicity [strL "Goal True.", strL "xauto.", strL "Qed."]
    (fun n => if n = 0 then ⟨true, (-1, -1)⟩ else ⟨false, (-1, -1)⟩)
    [] none [⟨(0, 0), (0, 9)⟩] ⟨(0, 10), (1, 5)⟩ [⟨(1, 6), (2, 3)⟩]
    (fun i hi => by
      have hz : i = 0 := by simpa using hi
      subst hz
      rfl)
    (by rfl)
  exact ⟨h.1.trans (by decide), h.2⟩

/-! ### Claim C6: the error locator -/

/-- The fragment of a list after its last occurrence of `sep` (the whole
list when `sep` does not occur). -/
def lastFragment (sep : Char) : List Char → List Char
  | [] => []
  | ch :: t => if (ch :: t).count sep = 0 then ch :: t else lastFragment sep t

theorem pySplit_ne_nil (sep : Char) (s : List Char) : pySplit sep s ≠ [] := by
  cases s with
  | nil => simp [pySplit]
  | cons c t =>
      simp only [pySplit]
      split
    
      · simp
      · split <;> simp

theorem pySplit_cons_ex (sep : Char) (t : List Char) :
    ∃ h r, pySplit sep t = h :: r := by
  rcases hsp : pySplit sep t with _ | ⟨h, r⟩
  · exact absurd hsp (pySplit_ne_nil sep t)
  · exact ⟨h, r, rfl⟩

theorem pySplit_length (sep : Char) :
    ∀ s : List Char, (pySplit sep s).length = s.count sep + 1 := by
  intro s
  induction s with
  | nil => simp [pySplit]
  | cons c t ih =>
      obtain ⟨h, r, heq⟩ := pySplit_cons_ex sep t
      rw [heq] at ih
      simp only [List.length_cons] at ih
      by_cases hc : c = sep
      · rw [show pySplit sep (c :: t) = [] :: h :: r from by simp [pySplit, heq, hc]]
        simp [List.count_cons, hc]
        omega
      · rw [show pySplit sep (c :: t) = (c :: h) :: r from by simp [pySplit, heq, hc]]
        simp [List.count_cons, hc]
        omega

theorem count_eq_zero_pySplit (sep : Char) :
    ∀ s : List Char, s.count sep = 0 → pySplit sep s = [s] := by
  intro s
  induction s with
  | nil => simp [pySplit]
  | cons c t ih =>
      intro h
      have hc : c ≠ sep := by
        intro hcc
        rw [List.count_cons] at h
        simp [hcc] at h
      have ht : t.count sep = 0 := by
        rw [List.count_cons] at h
        omega
      simp [pySplit, ih ht, hc]

theorem pySplit_getLastD (sep : Char) :
    ∀ s : List Char, (pySplit sep s).getLastD [] = lastFragment sep s := by
  intro s
  induction s with
  | nil => simp [pySplit, lastFragment]
  | cons c t ih =>
      obtain ⟨h, r, heq⟩ := pySplit_cons_ex sep t
      rw [heq] at ih
      by_cases hc : c = sep
      · have hcnz : ¬ (c :: t).count sep = 0 := by
          rw [List.count_cons]
          simp [hc]
        rw [show lastFragment sep (c :: t) = lastFragment sep t from by
          simp [lastFragment, hcnz]]
        rw [show pySplit sep (c :: t) = [] :: h :: r from by simp [pySplit, heq, hc]]
        rw [List.getLastD_cons]
        exact ih
      · rcases hcount : t.count sep with _ | k
        · have hz : (c :: t).count sep = 0 := by
            rw [List.count_cons, hcount]
            simp [hc]
          rw [show lastFragment sep (c :: t) = c :: t from by simp [lastFragment, hz]]
          have hsplit := count_eq_zero_pySplit sep t hcount
          rw [show pySplit sep (c :: t) = [c :: t] from by simp [pySplit, hsplit, hc]]
          rfl
        · have hcnz : ¬ (c :: t).count sep = 0 := by
            rw [List.count_cons, hcount]
            omega
          rw [show lastFragment sep (c :: t) = lastFragment sep t from by
            simp [lastFragment, hcnz]]
          rw [show pySplit sep (c :: t) = (c :: h) :: r from by simp [pySplit, heq, hc]]
          have hrne : r ≠ [] := by
            have hl := pySplit_length sep t
            rw [heq, hcount] at hl
            simp only [List.length_cons] at hl
            intro hr
            rw [hr] at hl
            simp at hl
          rcases r with _ | ⟨r0, rr⟩
          · exact absurd rfl hrne
          · rw [List.getLastD_cons] at ih ⊢
            rw [List.getLastD_cons] at ih ⊢
            exact ih

/-- The error location of one offset as the specification describes it:
count the newlines in the text prefix up to the offset to get the line
relative to the unit's start, use the length of the fragment after the
last newline as the column, adding the unit's starting column only when
the offset falls on the unit's first line, and add the unit's starting
line. -/
def specErrorLoc (start : Pos) (t : List Char) (off : Int) : Pos :=
  (start.1 + (pySliceUpto t off).count '\n',
    (lastFragment '\n' (pySliceUpto t off)).length +
      (if (pySliceUpto t off).count '\n' = 0 then start.2 else 0))

theorem pos_from_offset_spec (c : Nat) (t : List Char) (off : Int) :
    _pos_from_offset c t off =
      ((pySliceUpto t off).count '\n',
        (lastFragment '\n' (pySliceUpto t off)).length +
          (if (pySliceUpto t off).count '\n' = 0 then c else 0)) := by
  simp only [_pos_from_offset]
  rw [pySplit_getLastD, pySplit_length]
  simp

/-- C6 (confirmed): for a rejected unit starting at `(l, c)` with
dispatched text `t` and reported offsets `(loc_s, loc_e)` other than the
`(-1, -1)` sentinel, the recorded error location is obtained per offset by
counting newlines in `t[:offset]`, taking the length of the last fragment
as the column (plus `c` exactly when the offset is on the unit's first
line), and adding `l` to the relative line. -/
theorem C6_error_translation (start stop : Pos) (t : List Char) (loc_s loc_e : Int)
    (h : ¬ (loc_s = -1 ∧ loc_e = -1)) :
    computeError start stop t (loc_s, loc_e) =
      (specErrorLoc start t loc_s, specErrorLoc start t loc_e) := by
  simp only [computeError, specErrorLoc]
  rw [if_neg h]
  rw [pos_from_offset_spec, pos_from_offset_spec]

/-- C6 witness: the unit text `"foo bar.\nbaz."` at `(5, 2)` with offsets
`(4, 7)` translates to `((5, 6), (5, 9))`. -/
theorem C6_witness :
    computeError (5, 2) (6, 3) (strL "foo bar.\nbaz.") (4, 7) = ((5, 6), (5, 9)) :=
  (C6_error_translation (5, 2) (6, 3) (strL "foo bar.\nbaz.") 4 7 (by decide)).trans
    (by decide)

/-! ### Claim C9: the checkpoint stack is strictly increasing -/

/-- Well-formedness of a send queue relative to a frontier `f`: each unit
starts at or after the previous unit's pushed checkpoint and stops at or
after its own start. -/
inductive QOK : Pos → List ChunkRange → Prop
  | nil (f : Pos) : QOK f []
  | cons (f : Pos) (u : ChunkRange) (q : List ChunkRange) :
      posLe f u.start → posLe u.start u.stop → QOK (pushPos u) q → QOK f (u :: q)

theorem posLt_pushPos (u : ChunkRange) (f : Pos) (h1 : posLe f u.start)
    (h2 : posLe u.start u.stop) : posLt f (pushPos u) := by
  refine posLt_of_posLe_of_posLt (posLe_trans h1 h2) ?_
  exact Or.inr ⟨rfl, Nat.lt_succ_self _⟩

theorem getLastD_concat_pos (x : Pos) :
    ∀ (l : List Pos) (d : Pos), (l ++ [x]).getLastD d = x := by
  intro l
  induction l with
  | nil => intro d; rfl
  | cons a t ih => intro d; rw [List.cons_append, List.getLastD_cons]; exact ih a

theorem lastPos_concat (eps : List Pos) (x : Pos) : lastPos (eps ++ [x]) = x :=
  getLastD_concat_pos x eps (0, 0)

theorem chain_concat (eps : List Pos) (x : Pos) (hc : List.Chain' posLt eps)
    (hx : posLt (lastPos eps) x) : List.Chain' posLt (eps ++ [x]) := by
  rw [List.chain'_append]
  refine ⟨hc, List.chain'_singleton x, ?_⟩
  intro y hy z hz
  simp only [List.head?_cons, Option.mem_def, Option.some.injEq] at hz
  subst hz
  rcases eps with _ | ⟨a, l⟩
  · simp at hy
  · have : lastPos (a :: l) = y := by
      unfold lastPos
      rw [List.getLastD_eq_getLast?]
      rw [hy]
      rfl
    rw [← this]
    exact hx

theorem sendGo_chain (buf : Doc) (oracle : Nat → DispatchR) :
    ∀ (q : List ChunkRange) (n : Nat) (endpoints : List Pos) (err : Option (Pos × Pos)),
      List.Chain' posLt endpoints → QOK (lastPos endpoints) q →
      List.Chain' posLt (send_until_fail_go buf oracle q n endpoints err).endpoints := by
  intro q
  induction q with
  | nil => intro n endpoints err hc _; exact hc
  | cons u us ih =>
      intro n endpoints err hc hq
      rcases hq with _ | ⟨_, _, _, h1, h2, h3⟩
      simp only [send_until_fail_go]
      split
      · have hc' := chain_concat endpoints (pushPos u) hc (posLt_pushPos u _ h1 h2)
        have h3' : QOK (lastPos (endpoints ++ [pushPos u])) us := by
          rw [lastPos_concat]
          exact h3
        have := ih (n + 1) (endpoints ++ [pushPos u]) err hc' h3'
        simpa [pushPos] using this
      · exact hc

theorem chain_take (l : List Pos) (n : Nat) (h : List.Chain' posLt l) :
    List.Chain' posLt (l.take n) := by
  have hp : l.take n <+: l := List.take_prefix n l
  exact h.prefix hp

theorem rewindEndpoints_chain (eps : List Pos) (steps : Int) (success : Bool) (extra : Int)
    (h : List.Chain' posLt eps) :
    List.Chain' posLt (rewindEndpoints eps steps success extra) := by
  unfold rewindEndpoints pySliceUpto
  split
  · exact h
  · split
    · exact chain_take _ _ h
    · exact h

theorem rewind_to_chain (eps : List Pos) (line col : Nat) (success : Bool) (extra : Int)
    (h : List.Chain' posLt eps) :
    List.Chain' posLt (rewind_to eps line col success extra) :=
  rewindEndpoints_chain _ _ _ _ h

theorem get_message_range_QOK (fuel : Nat) (buf : Doc) (p : Pos) (ts : ChunkRange)
    (h : _get_message_range fuel buf p = some ts) :
    ts.start = p ∧ posLe ts.start ts.stop := by
  unfold _get_message_range at h
  split at h
  · exact absurd h (by simp)
  · rename_i e he
    injection h with h
    subst h
    exact ⟨rfl, _find_next_chunk_mono fuel buf p.1 p.2 e he⟩

theorem chunk_chain_QOK (fuel : Nat) (buf : Doc) :
    ∀ (lfuel : Nat) (p cursor : Pos), QOK p (chunk_chain fuel buf lfuel p cursor) := by
  intro lfuel
  induction lfuel with
  | zero => intro p cursor; exact QOK.nil p
  | succ lfuel ih =>
      intro p cursor
      simp only [chunk_chain]
      split
      · exact QOK.nil p
      · rename_i ts hts
        obtain ⟨hstart, hle⟩ := get_message_range_QOK fuel buf p ts hts
        split
        · refine QOK.cons p ts _ (hstart ▸ posLe_refl p) hle ?_
          exact ih (ts.stop.1, ts.stop.2 + 1) cursor
        · exact QOK.nil p

theorem op_next_chain (fuel : Nat) (buf : Doc) (oracle : Nat → DispatchR) (eps : List Pos)
    (h : List.Chain' posLt eps) : List.Chain' posLt (op_next fuel buf oracle eps) := by
  simp only [op_next]
  split
  · exact h
  · rename_i ts hts
    obtain ⟨hstart, hle⟩ := get_message_range_QOK fuel buf (lastPos eps) ts hts
    refine sendGo_chain buf oracle [ts] 0 eps none h ?_
    exact QOK.cons _ ts [] (hstart ▸ posLe_refl _) hle (QOK.nil _)

theorem op_to_cursor_chain (fuel lfuel : Nat) (buf : Doc) (oracle : Nat → DispatchR)
    (cline ccol : Nat) (success : Bool) (extra : Int) (eps : List Pos)
    (h : List.Chain' posLt eps) :
    List.Chain' posLt (op_to_cursor fuel lfuel buf oracle cline ccol success extra eps) := by
  simp only [op_to_cursor]
  split
  · exact rewind_to_chain _ _ _ _ _ h
  · exact sendGo_chain buf oracle _ 0 eps none h (chunk_chain_QOK fuel buf lfuel _ _)

/-- C9 (confirmed): in every state of the synchronization engine reachable
from the empty initial state by any sequence of advance-one,
advance-to-cursor, rewind, rewind-to and reset operations, the checkpoint
stack is strictly increasing in lexicographic (line, column) order; each
element pushed by a drain is the accepted unit's stop position with the
column incremented by one. -/
theorem C9_endpoints_sorted (eps : List Pos) (h : Reach eps) : List.Chain' posLt eps := by
  induction h with
  | init => exact List.chain'_nil
  | reset _ _ _ => exact List.chain'_nil
  | next fuel buf oracle eps _ ih => exact op_next_chain fuel buf oracle eps ih
  | to_cursor fuel lfuel buf oracle cline ccol success extra eps _ ih =>
      exact op_to_cursor_chain fuel lfuel buf oracle cline ccol success extra eps ih
  | rewind steps success extra eps _ ih => exact rewindEndpoints_chain eps steps success extra ih
  | rewind_to line col success extra eps _ ih => exact rewind_to_chain eps line col success extra ih

/-- C9 witness: the state reached by one advance over `"Goal True."` with
an accepting prover is strictly increasing. -/
theorem C9_witness :
    List.Chain' posLt
      (op_next 20 [strL "Goal True."] (fun _ => ⟨true, (-1, -1)⟩) []) :=
  C9_endpoints_sorted _ (Reach.next 20 [strL "Goal True."] (fun _ => ⟨true, (-1, -1)⟩) [] Reach.init)

/-! ### Claims about dot runs and scanner progress -/

/-- C3 counterexample: scanning `"Qed..."` ends the unit at index 5 (the
third dot of the run), not at index 4, the index of the second dot. -/
theorem C3_counterexample :
    _find_next_chunk 20 [strL "Qed..."] 0 0 = some (0, 5) ∧
      _find_next_chunk 20 [strL "Qed..."] 0 0 ≠ some (0, 4) := by
  decide

/-- C3 (amended): when the dot search finds a run of three or more
consecutive dots, with no comment opener or string quote before the first
dot of the run, the unit ends two characters after the first dot, i.e. at
the third dot of the run (not the second); in particular `"Qed..."` ends
at index 5. -/
theorem C3_run_of_dots (fuel : Nat) (buf : Doc) (sline scol d : Nat)
    (hline : sline < buf.length)
    (hdot : pyFind ((lineAt buf sline).drop scol) ['.'] = (d : Int))
    (hcom : ¬ (0 ≤ pyFind ((lineAt buf sline).drop scol) ['(', '*'] ∧
      pyFind ((lineAt buf sline).drop scol) ['(', '*'] < (d : Int)))
    (hstr : ¬ (0 ≤ pyFind ((lineAt buf sline).drop scol) ['"'] ∧
      pyFind ((lineAt buf sline).drop scol) ['"'] < (d : Int)))
    (hrun : ((((lineAt buf sline).drop scol).drop d).take 3) = ['.', '.', '.']) :
    _find_dot_after (fuel + 1) buf sline scol = some (sline, scol + d + 2) := by
  have ht2 : ((((lineAt buf sline).drop scol).drop d).take 2) = ['.', '.'] := by
    have h := congrArg (List.take 2) hrun
    rw [List.take_take] at h
    simpa using h
  simp only [_find_dot_after]
  rw [hdot]
  rw [if_neg (by omega : ¬ List.length buf ≤ sline)]
  have h1 : ¬ (pyFind ((lineAt buf sline).drop scol) ['(', '*'] = -1 ∧ (d : Int) = -1 ∧
      pyFind ((lineAt buf sline).drop scol) ['"'] = -1) := by
    intro hall
    have := hall.2.1
    omega
  rw [if_neg h1]
  have h2 : ¬ ((d : Int) = -1 ∨
      (0 ≤ pyFind ((lineAt buf sline).drop scol) ['(', '*'] ∧
        pyFind ((lineAt buf sline).drop scol) ['(', '*'] < (d : Int)) ∨
      (0 ≤ pyFind ((lineAt buf sline).drop scol) ['"'] ∧
        pyFind ((lineAt buf sline).drop scol) ['"'] < (d : Int))) := by
    rintro (hd | hc | hs)
    · omega
    · exact hcom hc
    · exact hstr hs
  rw [if_neg h2]
  rw [Int.toNat_ofNat]
  rw [if_neg (by rw [ht2]; decide)]
  rw [if_pos hrun]

/-- C3 witness: the `"Qed..."` instance of the amended statement. -/
theorem C3_witness :
    _find_dot_after 20 [strL "Qed..."] 0 0 = some (0, 0 + 3 + 2) :=
  C3_run_of_dots 19 [strL "Qed..."] 0 0 3 (by decide) (by decide) (by decide) (by decide)
    (by decide)

/-- C4 (code bug evaluated): in `"a.. b."` the two-dot run at indices 1-2
precedes the real terminating period at index 5, yet the scanner ends the
unit at `(0, 2)`, the second dot of the run, because the recursive dot
search re-enters at the second dot and sees it followed by a space. -/
theorem C4_code_eval :
    _find_next_chunk 20 [strL "a.. b."] 0 0 = some (0, 2) ∧
      _find_dot_after 20 [strL "a.. b."] 0 0 = some (0, 2) := by
  decide

/-- C7 counterexample: on the document `"."` the scanner returns exactly
its input position `(0, 0)`, which is not strictly greater than the input. -/
theorem C7_counterexample :
    _find_next_chunk 20 [strL "."] 0 0 = some (0, 0) ∧ ¬ posLt (0, 0) (0, 0) := by
  decide

/-- C7 (amended): whenever `_find_next_chunk` returns a position, that
position is at or after the input position in lexicographic order (it can
equal the input, so "strictly greater" fails, but it is never smaller). -/
theorem C7_scanner_nondecreasing (fuel : Nat) (buf : Doc) (p q : Pos)
    (h : _find_next_chunk fuel buf p.1 p.2 = some q) : posLe p q :=
  _find_next_chunk_mono fuel buf p.1 p.2 q h

/-- C7 witness: scanning `"Goal True."` from `(0, 0)` gives `(0, 9)`,
which is at or after `(0, 0)`. -/
theorem C7_witness : posLe (0, 0) (0, 9) :=
  C7_scanner_nondecreasing 20 [strL "Goal True."] (0, 0) (0, 9) (by decide)

/-! ### Line bounds: positions returned by the scanner lie inside the
document. -/

theorem skipWSAux_lt :
    ∀ (ls : List (List Char)) (line col : Nat) (q : Pos),
      skipWSAux ls line col = some q → q.1 < line + ls.length := by
  intro ls
  induction ls with
  | nil => intro line col q h; simp [skipWSAux] at h
  | cons hd tl ih =>
      intro line col q h
      simp only [skipWSAux] at h
      split at h
      · injection h with h
        subst h
        simp
      · have := ih (line + 1) 0 q h
        simp only [List.length_cons]
        omega

theorem skipWSAux_drop_lt (buf : Doc) (sline scol : Nat) (q : Pos)
    (h : skipWSAux (buf.drop sline) sline scol = some q) : q.1 < buf.length := by
  have h1 := skipWSAux_lt (buf.drop sline) sline scol q h
  rw [List.length_drop] at h1
  have h2 : buf.drop sline ≠ [] := by
    intro he
    rw [he] at h
    simp [skipWSAux] at h
  have h3 : sline < buf.length := by
    by_contra hc
    push_neg at hc
    exact h2 (List.drop_eq_nil_of_le hc)
  omega

theorem chunk_head_lt :
    ∀ (fuel : Nat) (buf : Doc) (sline scol : Nat) (q : Pos),
      chunk_head fuel buf sline scol = some q → q.1 < buf.length := by
  intro fuel
  induction fuel with
  | zero => intro buf sline scol q h; simp [chunk_head] at h
  | succ fuel ih =>
      intro buf sline scol q h
      simp only [chunk_head] at h
      split at h
      · exact absurd h (by simp)
      · rename_i w hws
        split at h
        · split at h
          · exact absurd h (by simp)
          · exact ih _ _ _ _ h
        · injection h with h
          subst h
          exact skipWSAux_drop_lt buf sline scol _ hws

theorem _find_dot_after_lt :
    ∀ (fuel : Nat) (buf : Doc) (sline scol : Nat) (q : Pos),
      _find_dot_after fuel buf sline scol = some q → q.1 < buf.length := by
  intro fuel
  induction fuel with
  | zero => intro buf sline scol q h; simp [_find_dot_after] at h
  | succ fuel ih =>
      intro buf sline scol q h
      simp only [_find_dot_after] at h
      split at h
      · exact absurd h (by simp)
      · rename_i hbound
        split at h
        · exact ih _ _ _ _ h
        · split at h
          · split at h
            · split at h
              · exact absurd h (by simp)
              · exact ih _ _ _ _ h
            · split at h
              · exact absurd h (by simp)
              · exact ih _ _ _ _ h
          · split at h
            · injection h with h
              subst h
              show sline < List.length buf
              omega
            · split at h
              · injection h with h
                subst h
                show sline < List.length buf
                omega
              · exact ih _ _ _ _ h

theorem _find_next_chunk_lt (fuel : Nat) (buf : Doc) (sline scol : Nat) (q : Pos)
    (h : _find_next_chunk fuel buf sline scol = some q) : q.1 < buf.length := by
  simp only [_find_next_chunk] at h
  split at h
  · exact absurd h (by simp)
  · rename_i wl wc hch
    split at h
    · exact absurd h (by simp)
    · split at h
      · injection h with h
        subst h
        show wl < List.length buf
        exact chunk_head_lt fuel buf sline scol _ hch
      · exact _find_dot_after_lt fuel buf _ _ q h

/-! ### Claim C5: bullets -/

/-- C5 counterexample: on `"- auto."` the scanner stops the bullet unit at
`(0, 1)` and the inclusive slice from the bullet is `"- "` — the bullet
plus the following space, not the single bullet character. -/
theorem C5_counterexample :
    _find_next_chunk 20 [strL "- auto."] 0 0 = some (0, 1) ∧
      _between [strL "- auto."] (0, 0) (0, 1) = strL "- " ∧
      _between [strL "- auto."] (0, 0) (0, 1) ≠ strL "-" := by
  decide

/-- C5 (amended): when the first non-whitespace non-comment character of
the chunk is a bullet `b`, the scanner returns the position one past the
bullet, and the inclusive slice from the bullet's own position to that
stop is the bullet followed by the next character of the line when one
exists (so it is the single bullet character only when the bullet ends
its line). -/
theorem C5_bullet_unit (fuel : Nat) (buf : Doc) (sline scol line col : Nat)
    (b : Char) (rest : List Char)
    (hch : chunk_head fuel buf sline scol = some (line, col))
    (hline : (lineAt buf line).drop col = b :: rest)
    (hb : b ∈ bullets) :
    _find_next_chunk fuel buf sline scol = some (line, col + 1) ∧
      _between buf (line, col) (line, col + 1) = b :: rest.take 1 := by
  have hnb : isPySpace b = false := by
    simp only [bullets, List.mem_cons, List.not_mem_nil, or_false] at hb
    rcases hb with rfl | rfl | rfl | rfl | rfl <;> decide
  have hstrip : pyLstrip ((lineAt buf line).drop col) = b :: rest := by
    rw [hline]
    unfold pyLstrip
    rw [List.dropWhile_cons_of_neg (by simp [hnb])]
  constructor
  · simp only [_find_next_chunk, hch, hstrip]
    rw [if_pos hb]
  · have hlt : line < buf.length := chunk_head_lt fuel buf sline scol _ hch
    unfold _between betweenLines
    have hdrop : buf.drop line = lineAt buf line :: buf.drop (line + 1) := by
      rw [List.drop_eq_getElem_cons hlt]
      rw [lineAt, List.getD_eq_getElem buf [] hlt]
    simp only [hdrop]
    have h1 : line + 1 - line = 1 := by omega
    have h0 : line - line = 0 := by omega
    rw [h1, h0]
    simp only [List.take_succ_cons, List.take_zero, betweenGo, joinNl, if_pos]
    rw [List.drop_take]
    have h2 : col + 1 + 1 - col = 2 := by omega
    rw [h2, hline]
    rfl

/-- C5 witness: the `"- auto."` instance: stop is one past the bullet and
the slice is `"- "`. -/
theorem C5_witness :
    _find_next_chunk 20 [strL "- auto."] 0 0 = some (0, 0 + 1) ∧
      _between [strL "- auto."] (0, 0) (0, 0 + 1) = '-' :: (strL " auto.").take 1 :=
  C5_bullet_unit 20 [strL "- auto."] 0 0 0 0 '-' (strL " auto.")
    (by decide) (by decide) (by decide)

/-! ### How `pyFind` behaves on a truncated line -/

theorem cons_prefix_cons {a : Char} {l1 l2 : List Char} (h : l1 <+: l2) :
    a :: l1 <+: a :: l2 := by
  obtain ⟨r, hr⟩ := h
  exact ⟨r, by rw [List.cons_append, hr]⟩

theorem findSubNat_none_take (pat : List Char) :
    ∀ (l : List Char) (k : Nat), findSubNat pat l = none → findSubNat pat (l.take k) = none := by
  intro l
  induction l with
  | nil => intro k h; simpa using h
  | cons c t ih =>
      intro k h
      simp only [findSubNat] at h
      split at h
      · exact absurd h (by simp)
      · rename_i hpre
        rcases k with _ | k'
        · simp only [List.take_zero, findSubNat]
          rw [if_neg (by
            intro he
            have : pat = [] := by simpa [List.isPrefixOf_iff_prefix] using he
            subst this
            exact hpre (by simp [List.isPrefixOf_iff_prefix]))]
      
        · simp only [List.take_succ_cons, findSubNat]
          rw [if_neg (by
            intro hp
            refine hpre ?_
            rw [List.isPrefixOf_iff_prefix] at hp ⊢
            exact hp.trans (cons_prefix_cons (List.take_prefix k' t)))]
          have ht : findSubNat pat t = none := by
            rcases hfs : findSubNat pat t with _ | n
            · rfl
            · rw [hfs] at h; simp at h
          rw [ih k' ht]
          rfl

theorem pyFind_of_some (l pat : List Char) (n : Nat) (h : findSubNat pat l = some n) :
    pyFind l pat = (n : Int) := by
  unfold pyFind
  rw [h]

theorem pyFind_of_none (l pat : List Char) (h : findSubNat pat l = none) :
    pyFind l pat = -1 := by
  unfold pyFind
  rw [h]

theorem pyFind_to_some (l pat : List Char) (n : Nat) (h : pyFind l pat = (n : Int)) :
    findSubNat pat l = some n := by
  unfold pyFind at h
  rcases hfs : findSubNat pat l with _ | m
  · rw [hfs] at h
    simp at h
  · rw [hfs] at h
    simp only [Int.natCast_inj] at h
    rw [h]

theorem pyFind_to_none (l pat : List Char) (h : pyFind l pat = -1) :
    findSubNat pat l = none := by
  unfold pyFind at h
  rcases hfs : findSubNat pat l with _ | m
  · rfl
  · rw [hfs] at h
    simp at h

theorem findSubNat_some_take (pat : List Char) :
    ∀ (l : List Char) (k n : Nat), findSubNat pat l = some n → n + pat.length ≤ k →
      findSubNat pat (l.take k) = some n := by
  intro l
  induction l with
  | nil =>
      intro k n h hk
      simp only [findSubNat] at h
      split at h
      · injection h with h
        subst h
        rename_i hp
        have : pat = [] := by simpa [List.isPrefixOf_iff_prefix] using hp
        subst this
        simp [findSubNat]
      · exact absurd h (by simp)
  | cons c t ih =>
      intro k n h hk
      simp only [findSubNat] at h
      split at h
      · injection h with h
        subst h
        rename_i hp
        rw [List.isPrefixOf_iff_prefix, List.prefix_iff_eq_take] at hp
        rcases k with _ | k'
        · have hp0 : pat = [] := by
            have : pat.length = 0 := by simpa using hk
            simpa using this
          subst hp0
          simp [findSubNat]
        · simp only [List.take_succ_cons, findSubNat]
          rw [if_pos (by
            rw [List.isPrefixOf_iff_prefix, List.prefix_iff_eq_take]
            rw [← List.take_succ_cons, List.take_take]
            have hmin : min pat.length (k' + 1) = pat.length :=
              Nat.min_eq_left (by omega)
            rw [hmin]
            exact hp)]
      · rename_i hpre
        rcases hfs : findSubNat pat t with _ | m
        · rw [hfs] at h; simp at h
        · rw [hfs] at h
          simp only [Option.map_some'] at h
          injection h with h
          subst h
          rcases k with _ | k'
          · omega
          · simp only [List.take_succ_cons, findSubNat]
            rw [if_neg (by
              intro hp
              refine hpre ?_
              rw [List.isPrefixOf_iff_prefix] at hp ⊢
              exact hp.trans (cons_prefix_cons (List.take_prefix k' t)))]
            rw [ih k' m hfs (by omega)]
            rfl

theorem findSubNat_take_some (pat : List Char) :
    ∀ (l : List Char) (k m : Nat), findSubNat pat (l.take k) = some m →
      ∃ n, n ≤ m ∧ findSubNat pat l = some n := by
  intro l
  induction l with
  | nil =>
      intro k m h
      refine ⟨m, Nat.le_refl m, ?_⟩
      simpa using h
  | cons c t ih =>
      intro k m h
      rcases k with _ | k'
      · simp only [List.take_zero, findSubNat] at h
        split at h
        · injection h with h
          subst h
          rename_i hp
          have : pat = [] := by simpa [List.isPrefixOf_iff_prefix] using hp
          subst this
          exact ⟨0, Nat.le_refl 0, by simp [findSubNat]⟩
        · exact absurd h (by simp)
      · simp only [List.take_succ_cons, findSubNat] at h
        split at h
        · injection h with h
          subst h
          rename_i hp
          have hp2 : List.isPrefixOf pat (c :: t) = true := by
            rw [List.isPrefixOf_iff_prefix] at hp ⊢
            exact hp.trans (cons_prefix_cons (List.take_prefix k' t))
          exact ⟨0, Nat.le_refl 0, by simp [findSubNat, hp2]⟩
        · rename_i hpre
          rcases hfs : findSubNat pat (t.take k') with _ | m'
          · rw [hfs] at h; simp at h
          · rw [hfs] at h
            simp only [Option.map_some'] at h
            injection h with h
            subst h
            obtain ⟨n', hn', hfn⟩ := ih k' m' hfs
            by_cases hp : List.isPrefixOf pat (c :: t) = true
            · exact ⟨0, by omega, by simp [findSubNat, hp]⟩
            · refine ⟨n' + 1, by omega, ?_⟩
              simp only [findSubNat]
              rw [if_neg hp, hfn]
              rfl

theorem pyFind_neg_take (l pat : List Char) (k : Nat) (h : pyFind l pat = -1) :
    pyFind (l.take k) pat = -1 :=
  pyFind_of_none _ _ (findSubNat_none_take pat l k (pyFind_to_none l pat h))

theorem pyFind_keep_take (l pat : List Char) (k n : Nat) (h : pyFind l pat = (n : Int))
    (hk : n + pat.length ≤ k) : pyFind (l.take k) pat = (n : Int) :=
  pyFind_of_some _ _ _ (findSubNat_some_take pat l k n (pyFind_to_some l pat n h) hk)

theorem pyFind_take_ge (l pat : List Char) (k : Nat) (m : Int)
    (h : pyFind (l.take k) pat = m) (hm : 0 ≤ m) :
    0 ≤ pyFind l pat ∧ pyFind l pat ≤ m := by
  obtain ⟨m', hm'⟩ : ∃ m' : Nat, m = (m' : Int) := ⟨m.toNat, by omega⟩
  subst hm'
  obtain ⟨n, hn, hfn⟩ := findSubNat_take_some pat l k m' (pyFind_to_some _ pat m' h)
  rw [pyFind_of_some l pat n hfn]
  constructor
  · positivity
  · exact_mod_cast hn

theorem pyFind_head (l pat : List Char) (n : Nat) (h : pyFind l pat = (n : Int)) :
    List.isPrefixOf pat (l.drop n) = true := by
  have hfs := pyFind_to_some l pat n h
  clear h
  induction l generalizing n with
  | nil =>
      simp only [findSubNat] at hfs
      split at hfs
      · injection hfs with hfs
        subst hfs
        rename_i hp
        simpa using hp
      · exact absurd hfs (by simp)
  | cons c t ih =>
      simp only [findSubNat] at hfs
      split at hfs
      · injection hfs with hfs
        subst hfs
        rename_i hp
        simpa using hp
      · rcases hfs2 : findSubNat pat t with _ | m2
        · rw [hfs2] at hfs; simp at hfs
        · rw [hfs2] at hfs
          simp only [Option.map_some'] at hfs
          injection hfs with hfs
          subst hfs
          simpa using ih m2 hfs2

/-! ### Lines of the extracted document -/

/-- Column shift when re-addressing a document position inside the slice
extracted from `(sl, sc)`. -/
def shiftCol (sl sc l c : Nat) : Nat := if l = sl then c - sc else c

/-- Position shift into the extracted slice's coordinates. -/
def shiftPos (sl sc : Nat) (p : Pos) : Pos := (p.1 - sl, shiftCol sl sc p.1 p.2)

theorem shiftCol_add (sl sc l c x : Nat) (hc : l = sl → sc ≤ c) :
    shiftCol sl sc l (c + x) = shiftCol sl sc l c + x := by
  unfold shiftCol
  split
  · rename_i hl
    have := hc hl
    omega
  · rfl

theorem betweenGo_length :
    ∀ (ls : List (List Char)) (idx scol lastIdx ecol : Nat),
      (betweenGo ls idx scol lastIdx ecol).length = ls.length := by
  intro ls
  induction ls with
  | nil => intro idx scol lastIdx ecol; rfl
  | cons x rest ih =>
      intro idx scol lastIdx ecol
      simp only [betweenGo, List.length_cons]
      rw [ih]

theorem betweenGo_getD :
    ∀ (ls : List (List Char)) (idx scol lastIdx ecol j : Nat), j < ls.length →
      (betweenGo ls idx scol lastIdx ecol).getD j [] =
        ((ls.getD j []).take
            (if idx + j = lastIdx then ecol + 1 else (ls.getD j []).length)).drop
          (if idx + j = 0 then scol else 0) := by
  intro ls
  induction ls with
  | nil => intro idx scol lastIdx ecol j h; simp at h
  | cons x rest ih =>
      intro idx scol lastIdx ecol j h
      rcases j with _ | j'
      · simp [betweenGo]
      · simp only [betweenGo, List.getD_cons_succ]
        have hj : j' < rest.length := by simpa using h
        rw [ih (idx + 1) scol lastIdx ecol j' hj]
        have ha : idx + 1 + j' = idx + (j' + 1) := by omega
        rw [ha]

theorem lineAt_between (buf : Doc) (sl sc el ec : Nat) (hsle : sl ≤ el)
    (hel : el < buf.length) (l : Nat) (hl1 : sl ≤ l) (hl2 : l ≤ el) :
    lineAt (betweenLines buf (sl, sc) (el, ec)) (l - sl) =
      ((lineAt buf l).take (if l = el then ec + 1 else (lineAt buf l).length)).drop
        (if l = sl then sc else 0) := by
  unfold betweenLines lineAt
  have hlen : ((buf.drop sl).take (el + 1 - sl)).length = el + 1 - sl := by
    rw [List.length_take, List.length_drop]
    omega
  have hj : l - sl < ((buf.drop sl).take (el + 1 - sl)).length := by omega
  rw [betweenGo_getD _ 0 sc (el - sl) ec (l - sl) hj]
  have hget : ((buf.drop sl).take (el + 1 - sl)).getD (l - sl) [] = buf.getD l [] := by
    rw [List.getD_eq_getElem _ _ hj]
    rw [List.getElem_take]
    have hd : l - sl < (buf.drop sl).length := by
      rw [List.length_drop]
      omega
    rw [List.getElem_drop buf]
    rw [List.getD_eq_getElem buf [] (by omega : l < buf.length)]
    have hidx : sl + (l - sl) = l := by omega
    simp only [hidx]
  rw [hget]
  simp only [Nat.zero_add]
  by_cases hle : l = el
  · rw [if_pos (show l - sl = el - sl by omega), if_pos hle]
    by_cases hls : l = sl
    · rw [if_pos (show l - sl = 0 by omega), if_pos hls]
    · rw [if_neg (show ¬ l - sl = 0 by omega), if_neg hls]
  · rw [if_neg (show ¬ l - sl = el - sl by omega), if_neg hle]
    by_cases hls : l = sl
    · rw [if_pos (show l - sl = 0 by omega), if_pos hls]
    · rw [if_neg (show ¬ l - sl = 0 by omega), if_neg hls]

theorem between_length (buf : Doc) (sl sc el ec : Nat) (hsle : sl ≤ el)
    (hel : el < buf.length) :
    (betweenLines buf (sl, sc) (el, ec)).length = el + 1 - sl := by
  unfold betweenLines
  rw [betweenGo_length, List.length_take, List.length_drop]
  omega

theorem suffix_between_lt (buf : Doc) (sl sc el ec : Nat) (hsle : sl ≤ el)
    (hel : el < buf.length) (l c : Nat) (hl1 : sl ≤ l) (hl2 : l < el)
    (hc : l = sl → sc ≤ c) :
    (lineAt (betweenLines buf (sl, sc) (el, ec)) (l - sl)).drop (shiftCol sl sc l c) =
      (lineAt buf l).drop c := by
  rw [lineAt_between buf sl sc el ec hsle hel l hl1 (by omega)]
  rw [if_neg (by omega : ¬ l = el), List.take_length]
  unfold shiftCol
  by_cases hsl : l = sl
  · rw [if_pos hsl, if_pos hsl, List.drop_drop]
    have := hc hsl
    have he : sc + (c - sc) = c := by omega
    rw [he]
  · rw [if_neg hsl, if_neg hsl, List.drop_zero]

theorem suffix_between_last (buf : Doc) (sl sc el ec : Nat) (hsle : sl ≤ el)
    (hel : el < buf.length) (c : Nat) (hc : el = sl → sc ≤ c) :
    (lineAt (betweenLines buf (sl, sc) (el, ec)) (el - sl)).drop (shiftCol sl sc el c) =
      ((lineAt buf el).drop c).take (ec + 1 - c) := by
  rw [lineAt_between buf sl sc el ec hsle hel el hsle (Nat.le_refl el)]
  rw [if_pos rfl]
  unfold shiftCol
  by_cases hsl : el = sl
  · rw [if_pos hsl, if_pos hsl, List.drop_drop]
    have := hc hsl
    have he : sc + (c - sc) = c := by omega
    rw [he, List.drop_take]
  · rw [if_neg hsl, if_neg hsl, List.drop_zero, List.drop_take]

/-! ### Whitespace skipping on a truncated line -/

theorem dropWhile_head_false {p : Char → Bool} :
    ∀ (t : List Char) (x : Char) (r : List Char), t.dropWhile p = x :: r → p x = false := by
  intro t
  induction t with
  | nil => intro x r h; simp at h
  | cons c t' ih =>
      intro x r h
      rw [List.dropWhile_cons] at h
      split at h
      · exact ih x r h
      · rename_i hp
        injection h with h1 h2
        subst h1
        simpa using hp

theorem pyRstrip_eq_nil_iff (y : List Char) :
    pyRstrip y = [] ↔ ∀ x ∈ y, isPySpace x = true := by
  unfold pyRstrip
  constructor
  · intro h x hx
    have h2 : y.reverse.dropWhile isPySpace = [] := by
      have := congrArg List.reverse h
      simpa using this
    rw [List.dropWhile_eq_nil_iff] at h2
    exact h2 x (by simpa using hx)
  · intro h
    have h2 : y.reverse.dropWhile isPySpace = [] := by
      rw [List.dropWhile_eq_nil_iff]
      intro x hx
      exact h x (by simpa using hx)
    rw [h2]
    rfl

theorem pyLstrip_eq_nil_iff (y : List Char) :
    pyLstrip y = [] ↔ ∀ x ∈ y, isPySpace x = true := by
  unfold pyLstrip
  exact List.dropWhile_eq_nil_iff

theorem blank_iff (t : List Char) :
    pyRstrip (pyLstrip t) = [] ↔ ∀ x ∈ t, isPySpace x = true := by
  rw [pyRstrip_eq_nil_iff]
  constructor
  · intro h x hx
    rw [← List.takeWhile_append_dropWhile isPySpace t] at hx
    rcases List.mem_append.mp hx with hx1 | hx2
    · exact List.mem_takeWhile_imp hx1
    · exact h x hx2
  · intro h x hx
    refine h x ?_
    unfold pyLstrip at hx
    exact (List.dropWhile_sublist isPySpace).mem hx

theorem takeWhile_take {p : Char → Bool} :
    ∀ (t : List Char) (k : Nat), (t.takeWhile p).length < k →
      (t.take k).takeWhile p = t.takeWhile p ∧
        (t.take k).dropWhile p = (t.dropWhile p).take (k - (t.takeWhile p).length) := by
  intro t
  induction t with
  | nil => intro k hk; simp
  | cons c t' ih =>
      intro k hk
      by_cases hp : p c
      · rw [List.takeWhile_cons_of_pos hp] at hk ⊢
        simp only [List.length_cons] at hk
        rcases k with _ | k'
        · omega
        · rw [List.take_succ_cons, List.takeWhile_cons_of_pos hp,
            List.dropWhile_cons_of_pos hp, List.dropWhile_cons_of_pos hp]
          obtain ⟨h1, h2⟩ := ih k' (by omega)
          refine ⟨by rw [h1], ?_⟩
          rw [h2]
          have : k' + 1 - ((c :: t'.takeWhile p).length) = k' - (t'.takeWhile p).length := by
            simp
          rw [List.length_cons]
          have he : k' + 1 - ((t'.takeWhile p).length + 1) = k' - (t'.takeWhile p).length := by
            omega
          rw [he]
      · rcases k with _ | k'
        · omega
        · rw [List.take_succ_cons, List.takeWhile_cons_of_neg hp,
            List.takeWhile_cons_of_neg hp, List.dropWhile_cons_of_neg hp,
            List.dropWhile_cons_of_neg hp]
          refine ⟨rfl, ?_⟩
          simp

theorem lstrip_count (t : List Char) :
    t.length - (pyLstrip t).length = (t.takeWhile isPySpace).length := by
  unfold pyLstrip
  have h := congrArg List.length (List.takeWhile_append_dropWhile isPySpace t)
  rw [List.length_append] at h
  omega

theorem drop_lstrip_count (t : List Char) :
    t.drop ((t.takeWhile isPySpace).length) = t.dropWhile isPySpace := by
  have h := List.takeWhile_append_dropWhile isPySpace t
  calc t.drop ((t.takeWhile isPySpace).length)
      = (List.takeWhile isPySpace t ++ List.dropWhile isPySpace t).drop
          ((t.takeWhile isPySpace).length) := by rw [h]
    _ = List.dropWhile isPySpace t := List.drop_left _ _

theorem skipWSAux_step (buf : Doc) (l c : Nat) (hl : l < buf.length) :
    skipWSAux (buf.drop l) l c =
      (if pyRstrip (pyLstrip ((lineAt buf l).drop c)) ≠ [] then
        some (l, c + (((lineAt buf l).drop c).length -
          (pyLstrip ((lineAt buf l).drop c)).length))
      else skipWSAux (buf.drop (l + 1)) (l + 1) 0) := by
  rw [List.drop_eq_getElem_cons hl]
  simp only [skipWSAux]
  unfold lineAt
  rw [List.getD_eq_getElem buf [] hl]

theorem skipWSAux_sim (buf : Doc) (sl sc el ec : Nat) (hsle : sl ≤ el)
    (hel : el < buf.length) :
    ∀ (n l c w wc : Nat), buf.length - l = n →
      posLe (sl, sc) (l, c) →
      skipWSAux (buf.drop l) l c = some (w, wc) →
      posLe (w, wc) (el, ec) →
      skipWSAux ((betweenLines buf (sl, sc) (el, ec)).drop (l - sl)) (l - sl)
          (shiftCol sl sc l c) =
        some (w - sl, shiftCol sl sc w wc) := by
  intro n
  induction n with
  | zero =>
      intro l c w wc hn hs h hw
      have : buf.length ≤ l := by omega
      rw [List.drop_eq_nil_of_le this] at h
      simp [skipWSAux] at h
  | succ n ih =>
      intro l c w wc hn hs h hw
      have hmono := skipWSAux_mono (buf.drop l) l c (w, wc) h
      have hlw : l ≤ w := by
        rcases hmono with hh | ⟨hh, _⟩ <;> omega
      have hwel : w ≤ el := by
        rcases hw with hh | ⟨hh, _⟩ <;> omega
      have hlel : l ≤ el := by omega
      have hsl : sl ≤ l := by
        rcases hs with hh | ⟨hh, _⟩ <;> omega
      have hscc : l = sl → sc ≤ c := by
        intro hls
        rcases hs with hh | ⟨hh, hh2⟩ <;> omega
      have hl : l < buf.length := by omega
      have hjlt : l - sl < (betweenLines buf (sl, sc) (el, ec)).length := by
        rw [between_length buf sl sc el ec hsle hel]
        omega
      rw [skipWSAux_step buf l c hl] at h
      rw [skipWSAux_step (betweenLines buf (sl, sc) (el, ec)) (l - sl)
        (shiftCol sl sc l c) hjlt]
      by_cases hblank : pyRstrip (pyLstrip ((lineAt buf l).drop c)) ≠ []
      · rw [if_pos hblank] at h
        injection h with h
        rw [Prod.mk.injEq] at h
        obtain ⟨hw1, hw2⟩ := h
        subst hw1
        by_cases hlimit : l = el
        · subst hlimit
          have hcec : c ≤ ec := by
            rcases hw with hh | ⟨hh, hh2⟩ <;> omega
          have hsuffix := suffix_between_last buf sl sc l ec hsle hel c hscc
          rw [hsuffix]
          set t := (lineAt buf l).drop c with hT
          set k := ec + 1 - c with hK
          have hcnt : t.length - (pyLstrip t).length = (t.takeWhile isPySpace).length :=
            lstrip_count t
          have hwcle : (t.takeWhile isPySpace).length < k := by
            rcases hw with hh | ⟨hh, hh2⟩
            · omega
            · omega
          obtain ⟨htw, hdw⟩ := takeWhile_take t k hwcle
          have hne : pyLstrip t ≠ [] := by
            intro hnil
            refine hblank ?_
            rw [blank_iff]
            rw [pyLstrip_eq_nil_iff] at hnil
            exact hnil
          obtain ⟨x, r, hxr⟩ : ∃ x r, pyLstrip t = x :: r := by
            rcases hh : pyLstrip t with _ | ⟨x, r⟩
            · exact absurd hh hne
            · exact ⟨x, r, rfl⟩
          have hx : isPySpace x = false := dropWhile_head_false t x r hxr
          have hdw2 : pyLstrip (t.take k) =
              x :: r.take (k - (t.takeWhile isPySpace).length - 1) := by
            unfold pyLstrip
            rw [hdw]
            unfold pyLstrip at hxr
            rw [hxr]
            rw [List.take_cons (by omega)]
          rw [if_pos (by
            rw [hdw2]
            intro hnil
            rw [pyRstrip_eq_nil_iff] at hnil
            have := hnil x (by simp)
            rw [hx] at this
            exact absurd this (by simp))]
          have hlen2 : (t.take k).length - (pyLstrip (t.take k)).length =
              (t.takeWhile isPySpace).length := by
            rw [lstrip_count (t.take k), htw]
          rw [hlen2]
          rw [← hw2, ← hcnt]
          rw [shiftCol_add sl sc l c (t.length - (pyLstrip t).length) hscc]
        · have hllt : l < el := by omega
          have hsuffix := suffix_between_lt buf sl sc el ec hsle hel l c hsl hllt hscc
          rw [hsuffix]
          rw [if_pos hblank]
          rw [← hw2]
          rw [shiftCol_add sl sc l c _ hscc]
      · rw [if_neg hblank] at h
        push_neg at hblank
        have hwgt : l + 1 ≤ w := by
          have hmono2 := skipWSAux_mono (buf.drop (l + 1)) (l + 1) 0 (w, wc) h
          rcases hmono2 with hh | ⟨hh, _⟩ <;> omega
        have hllt : l < el := by omega
        have hsuffix := suffix_between_lt buf sl sc el ec hsle hel l c hsl hllt hscc
        rw [hsuffix]
        rw [if_neg (by
          push_neg
          exact hblank)]
        have hrec := ih (l + 1) 0 w wc (by omega) (Or.inl (by omega)) h hw
        have hj : l + 1 - sl = l - sl + 1 := by omega
        rw [hj] at hrec
        have hz : shiftCol sl sc (l + 1) 0 = 0 := by
          unfold shiftCol
          rw [if_neg (by omega)]
        rw [hz] at hrec
        exact hrec

theorem pyFind_cases (l pat : List Char) :
    pyFind l pat = -1 ∨ ∃ n : Nat, pyFind l pat = (n : Int) := by
  unfold pyFind
  rcases findSubNat pat l with _ | n
  · exact Or.inl rfl
  · exact Or.inr ⟨n, rfl⟩

theorem optFind_cases (sstr : Option (List Char)) (line : List Char) :
    optFind sstr line = -1 ∨ ∃ n : Nat, optFind sstr line = (n : Int) := by
  rcases sstr with _ | s
  · exact Or.inl rfl
  · exact pyFind_cases line s

theorem optFind_neg_take (sstr : Option (List Char)) (l : List Char) (k : Nat)
    (h : optFind sstr l = -1) : optFind sstr (l.take k) = -1 := by
  rcases sstr with _ | s
  · rfl
  · exact pyFind_neg_take l s k h

theorem optFind_keep_take (sstr : Option (List Char)) (l : List Char) (k n : Nat)
    (h : optFind sstr l = (n : Int)) (hk : n + (sstr.getD []).length ≤ k) :
    optFind sstr (l.take k) = (n : Int) := by
  rcases sstr with _ | s
  · exact absurd h (by simp [optFind])
  · exact pyFind_keep_take l s k n h (by simpa using hk)

theorem optFind_take_ge (sstr : Option (List Char)) (l : List Char) (k : Nat) (m : Int)
    (h : optFind sstr (l.take k) = m) (hm : 0 ≤ m) :
    0 ≤ optFind sstr l ∧ optFind sstr l ≤ m := by
  rcases sstr with _ | s
  · simp [optFind] at h
    omega
  · exact pyFind_take_ge l s k m h hm

theorem shiftCol_add2 (sl sc l c x y : Nat) (hc : l = sl → sc ≤ c) :
    shiftCol sl sc l c + x + y = shiftCol sl sc l (c + x + y) := by
  unfold shiftCol
  split
  · rename_i hl
    have := hc hl
    omega
  · rfl

theorem _skip_block_sim (buf : Doc) (sl sc el ec : Nat) (hsle : sl ≤ el)
    (hel : el < buf.length) (estr : List Char) (sstr : Option (List Char)) :
    ∀ (fuel : Nat) (l c nesting : Nat) (r : Pos),
      posLe (sl, sc) (l, c) →
      _skip_block fuel buf l c estr sstr nesting = some r →
      posLe r (el, ec) →
      _skip_block fuel (betweenLines buf (sl, sc) (el, ec)) (l - sl) (shiftCol sl sc l c)
          estr sstr nesting = some (shiftPos sl sc r) := by
  intro fuel
  induction fuel with
  | zero => intro l c nesting r hs h hr; simp [_skip_block] at h
  | succ fuel ih =>
      intro l c nesting r hs h hr
      obtain ⟨rl, rc⟩ := r
      have hmono := _skip_block_mono (fuel + 1) buf l c estr sstr nesting (rl, rc) h
      have hsl : sl ≤ l := by rcases hs with hh | ⟨hh, _⟩ <;> omega
      have hscc : l = sl → sc ≤ c := by
        intro hls
        rcases hs with hh | ⟨hh, hh2⟩ <;> omega
      have hlel : l ≤ el := by
        rcases hmono with hh | ⟨hh, _⟩ <;> rcases hr with hh2 | ⟨hh2, _⟩ <;> omega
      simp only [_skip_block] at h ⊢
      by_cases hnest : nesting = 0
      · rw [if_pos hnest] at h ⊢
        injection h with h
        rw [← h]
        rfl
      · rw [if_neg hnest] at h ⊢
        have hbound : ¬ buf.length ≤ l := by
          by_contra hbb
          rw [if_pos hbb] at h
          exact absurd h (by simp)
        rw [if_neg hbound] at h
        rw [if_neg (by
          rw [between_length buf sl sc el ec hsle hel]
          omega)]
        by_cases hlimit : l = el
        · subst hlimit
          have hrl : rl = l ∧ rc ≤ ec := by
            rcases hmono with hh | ⟨hh, _⟩ <;> rcases hr with hh2 | ⟨hh2, hh3⟩ <;> omega
          have hcle : c ≤ ec := by
            rcases hmono with hh | ⟨hh, hh2⟩ <;> omega
          have hsuffix := suffix_between_last buf sl sc l ec hsle hel c hscc
          rw [hsuffix]
          split at h
          · rename_i hc1
            obtain ⟨hc1a, hc1b⟩ := hc1
            obtain ⟨be, hbe⟩ : ∃ n : Nat, pyFind ((lineAt buf l).drop c) estr = (n : Int) := by
              rcases pyFind_cases ((lineAt buf l).drop c) estr with hh | hh
              · exact absurd hh hc1a
              · exact hh
            rw [hbe, Int.toNat_ofNat] at h
            have hmono2 := _skip_block_mono fuel buf l (c + be + estr.length) estr sstr
              (nesting - 1) (rl, rc) h
            have hbek : c + be + estr.length ≤ ec := by
              rcases hmono2 with hh | ⟨hh, hh2⟩ <;> omega
            have hkeep : pyFind (((lineAt buf l).drop c).take (ec + 1 - c)) estr = (be : Int) :=
              pyFind_keep_take _ estr (ec + 1 - c) be hbe (by omega)
            rw [hkeep, Int.toNat_ofNat]
            rw [if_pos (by
              refine ⟨by simp, ?_⟩
              rcases hc1b with hlt | hbs
              · rcases optFind_cases sstr (((lineAt buf l).drop c).take (ec + 1 - c)) with
                  hh | ⟨m, hm⟩
                · exact Or.inr hh
                · rw [hm]
                  obtain ⟨hge1, hge2⟩ := optFind_take_ge sstr ((lineAt buf l).drop c)
                    (ec + 1 - c) (m : Int) hm (by positivity)
                  rw [hbe] at hlt
                  exact Or.inl (by omega)
              · exact Or.inr (optFind_neg_take sstr _ _ hbs))]
            have hrec := ih l (c + be + estr.length) (nesting - 1) (rl, rc)
              (posLe_trans hs (Or.inr ⟨rfl, by omega⟩)) h hr
            rw [← shiftCol_add2 sl sc l c be estr.length hscc] at hrec
            exact hrec
          · rename_i hc1
            split at h
            · rename_i hc2
              obtain ⟨bs, hbs⟩ : ∃ n : Nat,
                  optFind sstr ((lineAt buf l).drop c) = (n : Int) := by
                rcases optFind_cases sstr ((lineAt buf l).drop c) with hh | hh
                · exact absurd hh hc2
                · exact hh
              rw [hbs, Int.toNat_ofNat] at h
              have hmono2 := _skip_block_mono fuel buf l (c + bs + (sstr.getD []).length)
                estr sstr (nesting + 1) (rl, rc) h
              have hbsk : c + bs + (sstr.getD []).length ≤ ec := by
                rcases hmono2 with hh | ⟨hh, hh2⟩ <;> omega
              have hkeep : optFind sstr (((lineAt buf l).drop c).take (ec + 1 - c)) =
                  (bs : Int) :=
                optFind_keep_take sstr _ (ec + 1 - c) bs hbs (by omega)
              rw [hkeep, Int.toNat_ofNat]
              rw [if_neg (by
                intro hguard
                obtain ⟨hga, hgb⟩ := hguard
                rcases hgb with hlt | hneg
                · rcases pyFind_cases (((lineAt buf l).drop c).take (ec + 1 - c)) estr with
                    hh | ⟨m, hm⟩
                  · exact hga hh
                  · rw [hm] at hlt
                    obtain ⟨hge1, hge2⟩ := pyFind_take_ge ((lineAt buf l).drop c) estr
                      (ec + 1 - c) (m : Int) hm (by positivity)
                    refine hc1 ⟨by omega, ?_⟩
                    rw [hbs]
                    rcases pyFind_cases ((lineAt buf l).drop c) estr with hh2 | ⟨ben, hben⟩
                    · omega
                    · rw [hben]
                      rw [hben] at hge2 hge1
                      left
                      omega
                · omega)]
              rw [if_pos (by simp)]
              have hrec := ih l (c + bs + (sstr.getD []).length) (nesting + 1) (rl, rc)
                (posLe_trans hs (Or.inr ⟨rfl, by omega⟩)) h hr
              rw [← shiftCol_add2 sl sc l c bs (sstr.getD []).length hscc] at hrec
              exact hrec
            · have hmono2 := _skip_block_mono fuel buf (l + 1) 0 estr sstr nesting (rl, rc) h
              exfalso
              rcases hmono2 with hh | ⟨hh, _⟩ <;> omega
        · have hllt : l < el := by omega
          have hsuffix := suffix_between_lt buf sl sc el ec hsle hel l c hsl hllt hscc
          rw [hsuffix]
          split at h
          · rename_i hc1
            rw [if_pos hc1]
            have hrec := ih l (c + (pyFind ((lineAt buf l).drop c) estr).toNat + estr.length)
              (nesting - 1) (rl, rc) (posLe_trans hs (Or.inr ⟨rfl, by omega⟩)) h hr
            rw [← shiftCol_add2 sl sc l c (pyFind ((lineAt buf l).drop c) estr).toNat
              estr.length hscc] at hrec
            exact hrec
          · rename_i hc1
            split at h
            · rename_i hc2
              rw [if_neg hc1, if_pos hc2]
              have hrec := ih l (c + (optFind sstr ((lineAt buf l).drop c)).toNat +
                  (sstr.getD []).length) (nesting + 1) (rl, rc)
                (posLe_trans hs (Or.inr ⟨rfl, by omega⟩)) h hr
              rw [← shiftCol_add2 sl sc l c (optFind sstr ((lineAt buf l).drop c)).toNat
                (sstr.getD []).length hscc] at hrec
              exact hrec
            · rename_i hc2
              rw [if_neg hc1, if_neg hc2]
              have hrec := ih (l + 1) 0 nesting (rl, rc) (Or.inl (by omega)) h hr
              have hj : l + 1 - sl = l - sl + 1 := by omega
              rw [hj] at hrec
              have hz : shiftCol sl sc (l + 1) 0 = 0 := by
                unfold shiftCol
                rw [if_neg (by omega)]
              rw [hz] at hrec
              exact hrec

theorem pyFind_ge_neg_one (l pat : List Char) : -1 ≤ pyFind l pat := by
  rcases pyFind_cases l pat with h | ⟨n, h⟩
  · rw [h]
  · rw [h]
    omega

theorem optFind_ge_neg_one (sstr : Option (List Char)) (l : List Char) :
    -1 ≤ optFind sstr l := by
  rcases optFind_cases sstr l with h | ⟨n, h⟩
  · rw [h]
  · rw [h]
    omega

theorem singleton_prefix (x : Char) (l : List Char) (h : List.isPrefixOf [x] l = true) :
    ∃ r, l = x :: r := by
  rw [List.isPrefixOf_iff_prefix] at h
  obtain ⟨r, hr⟩ := h
  exact ⟨r, by rw [← hr]; rfl⟩

theorem _skip_comment_sim (buf : Doc) (sl sc el ec : Nat) (hsle : sl ≤ el)
    (hel : el < buf.length) (fuel l c : Nat) (r : Pos)
    (hs : posLe (sl, sc) (l, c))
    (h : _skip_comment fuel buf l c = some r) (hr : posLe r (el, ec)) :
    _skip_comment fuel (betweenLines buf (sl, sc) (el, ec)) (l - sl) (shiftCol sl sc l c) =
      some (shiftPos sl sc r) :=
  _skip_block_sim buf sl sc el ec hsle hel _ _ fuel l c 1 r hs h hr

theorem _skip_str_sim (buf : Doc) (sl sc el ec : Nat) (hsle : sl ≤ el)
    (hel : el < buf.length) (fuel l c : Nat) (r : Pos)
    (hs : posLe (sl, sc) (l, c))
    (h : _skip_str fuel buf l c = some r) (hr : posLe r (el, ec)) :
    _skip_str fuel (betweenLines buf (sl, sc) (el, ec)) (l - sl) (shiftCol sl sc l c) =
      some (shiftPos sl sc r) :=
  _skip_block_sim buf sl sc el ec hsle hel _ _ fuel l c 1 r hs h hr

theorem _find_dot_after_sim (buf : Doc) (sl sc el ec : Nat) (hsle : sl ≤ el)
    (hel : el < buf.length) :
    ∀ (fuel : Nat) (l c : Nat),
      posLe (sl, sc) (l, c) →
      _find_dot_after fuel buf l c = some (el, ec) →
      _find_dot_after fuel (betweenLines buf (sl, sc) (el, ec)) (l - sl) (shiftCol sl sc l c) =
        some (el - sl, shiftCol sl sc el ec) := by
  intro fuel
  induction fuel with
  | zero => intro l c hs h; simp [_find_dot_after] at h
  | succ fuel ih =>
      intro l c hs h
      have hmono := _find_dot_after_mono (fuel + 1) buf l c (el, ec) h
      have hsl : sl ≤ l := by rcases hs with hh | ⟨hh, _⟩ <;> omega
      have hscc : l = sl → sc ≤ c := by
        intro hls
        rcases hs with hh | ⟨hh, hh2⟩ <;> omega
      have hlel : l ≤ el := by rcases hmono with hh | ⟨hh, _⟩ <;> omega
      simp only [_find_dot_after] at h ⊢
      have hbound : ¬ buf.length ≤ l := by
        by_contra hbb
        rw [if_pos hbb] at h
        exact absurd h (by simp)
      rw [if_neg hbound] at h
      rw [if_neg (by rw [between_length buf sl sc el ec hsle hel]; omega)]
      by_cases hlimit : l = el
      · subst hlimit
        have hcle : c ≤ ec := by rcases hmono with hh | ⟨hh, hh2⟩ <;> omega
        have hsuffix := suffix_between_last buf sl sc l ec hsle hel c hscc
        rw [hsuffix]
        set t := (lineAt buf l).drop c with hT
        split at h
        · have hmono2 := _find_dot_after_mono fuel buf (l + 1) 0 (l, ec) h
          exfalso
          rcases hmono2 with hh | ⟨hh, _⟩ <;> omega
        · rename_i hC1
          split at h
          · rename_i hC2
            split at h
            · rename_i hC3
              split at h
              · exact absurd h (by simp)
              · rename_i p hskip
                obtain ⟨pl, pc⟩ := p
                have hgc := pyFind_ge_neg_one t ['(', '*']
                have hgs := pyFind_ge_neg_one t ['"']
                have hgd := pyFind_ge_neg_one t ['.']
                have hcomge : 0 ≤ pyFind t ['(', '*'] := by
                  by_contra hcc
                  push_neg at hcc
                  have hceq : pyFind t ['(', '*'] = -1 := by omega
                  have hseq : pyFind t ['"'] = -1 := by
                    rcases hC3 with hh | ⟨hh, _⟩
                    · exact hh
                    · omega
                  have hdeq : pyFind t ['.'] = -1 := by
                    rcases hC2 with hh | ⟨hh, hh2⟩ | ⟨hh, hh2⟩
                    · exact hh
                    · omega
                    · omega
                  exact hC1 ⟨hceq, hdeq, hseq⟩
                obtain ⟨comN, hcomN⟩ : ∃ n : Nat, pyFind t ['(', '*'] = (n : Int) :=
                  ⟨(pyFind t ['(', '*']).toNat, by omega⟩
                rw [hcomN, Int.toNat_ofNat] at hskip
                have hmskip := _skip_block_mono fuel buf l (c + comN + 2) _ _ 1 (pl, pc) hskip
                have hple : posLe (pl, pc) (l, ec) :=
                  _find_dot_after_mono fuel buf pl pc (l, ec) h
                have hcom2 : c + comN + 2 ≤ ec := by
                  rcases hmskip with hh | ⟨hh, hh2⟩ <;> rcases hple with h2 | ⟨h2, h3⟩ <;> omega
                have hkeepc : pyFind (t.take (ec + 1 - c)) ['(', '*'] = (comN : Int) :=
                  pyFind_keep_take t _ _ comN hcomN (by simp; omega)
                have hdotlt : pyFind t ['.'] = -1 ∨
                    (0 ≤ pyFind t ['(', '*'] ∧ pyFind t ['(', '*'] < pyFind t ['.']) := by
                  rcases hC2 with hh | hh | ⟨hh1, hh2⟩
                  · exact Or.inl hh
                  · exact Or.inr hh
                  · rcases hC3 with h3 | ⟨h3a, h3b⟩
                    · omega
                    · exact Or.inr ⟨hcomge, by omega⟩
                rw [if_neg (by
                  intro hall
                  rw [hkeepc] at hall
                  have := hall.1
                  omega)]
                rw [if_pos (by
                  rcases hdotlt with hh | ⟨hh1, hh2⟩
                  · exact Or.inl (pyFind_neg_take t ['.'] _ hh)
                  · rcases pyFind_cases (t.take (ec + 1 - c)) ['.'] with h2 | ⟨m, hm⟩
                    · exact Or.inl h2
                    · obtain ⟨hge1, hge2⟩ :=
                        pyFind_take_ge t ['.'] (ec + 1 - c) (m : Int) hm (by positivity)
                      rw [hkeepc, hm]
                      exact Or.inr (Or.inl ⟨by positivity, by omega⟩))]
                rw [if_pos (by
                  rcases hC3 with hh | ⟨hh1, hh2⟩
                  · exact Or.inl (pyFind_neg_take t ['"'] _ hh)
                  · rcases pyFind_cases (t.take (ec + 1 - c)) ['"'] with h2 | ⟨m, hm⟩
                    · exact Or.inl h2
                    · obtain ⟨hge1, hge2⟩ :=
                        pyFind_take_ge t ['"'] (ec + 1 - c) (m : Int) hm (by positivity)
                      rw [hkeepc, hm]
                      exact Or.inr ⟨by positivity, by omega⟩)]
                rw [hkeepc, Int.toNat_ofNat]
                have hsim := _skip_comment_sim buf sl sc l ec hsle hel fuel l (c + comN + 2)
                  (pl, pc) (posLe_trans hs (Or.inr ⟨rfl, by omega⟩)) hskip hple
                rw [← shiftCol_add2 sl sc l c comN 2 hscc] at hsim
                rw [hsim]
                have hstep : posLe (l, c) (l, c + comN + 2) := Or.inr ⟨rfl, by omega⟩
                exact ih pl pc (posLe_trans hs (posLe_trans hstep hmskip)) h
            · rename_i hC3
              split at h
              · exact absurd h (by simp)
              · rename_i p hskip
                obtain ⟨pl, pc⟩ := p
                have hgc := pyFind_ge_neg_one t ['(', '*']
                have hgs := pyFind_ge_neg_one t ['"']
                have hgd := pyFind_ge_neg_one t ['.']
                have hC3a : ¬ pyFind t ['"'] = -1 := fun hh => hC3 (Or.inl hh)
                have hC3b : ¬ (0 ≤ pyFind t ['(', '*'] ∧
                    pyFind t ['(', '*'] < pyFind t ['"']) := fun hh => hC3 (Or.inr hh)
                have hstrge : 0 ≤ pyFind t ['"'] := by omega
                obtain ⟨strN, hstrN⟩ : ∃ n : Nat, pyFind t ['"'] = (n : Int) :=
                  ⟨(pyFind t ['"']).toNat, by omega⟩
                rw [hstrN, Int.toNat_ofNat] at hskip
                have hmskip := _skip_block_mono fuel buf l (c + strN + 1) _ _ 1 (pl, pc) hskip
                have hple : posLe (pl, pc) (l, ec) :=
                  _find_dot_after_mono fuel buf pl pc (l, ec) h
                have hstr2 : c + strN + 1 ≤ ec := by
                  rcases hmskip with hh | ⟨hh, hh2⟩ <;> rcases hple with h2 | ⟨h2, h3⟩ <;> omega
                have hkeeps : pyFind (t.take (ec + 1 - c)) ['"'] = (strN : Int) :=
                  pyFind_keep_take t _ _ strN hstrN (by simp; omega)
                have hstrlt : pyFind t ['.'] = -1 ∨
                    (0 ≤ pyFind t ['"'] ∧ pyFind t ['"'] < pyFind t ['.']) := by
                  rcases hC2 with hh | ⟨hh1, hh2⟩ | hh
                  · exact Or.inl hh
                  · exact Or.inr ⟨hstrge, by omega⟩
                  · exact Or.inr hh
                rw [if_neg (by
                  intro hall
                  rw [hkeeps] at hall
                  have := hall.2.2
                  omega)]
                rw [if_pos (by
                  rcases hstrlt with hh | ⟨hh1, hh2⟩
                  · exact Or.inl (pyFind_neg_take t ['.'] _ hh)
                  · rcases pyFind_cases (t.take (ec + 1 - c)) ['.'] with h2 | ⟨m, hm⟩
                    · exact Or.inl h2
                    · obtain ⟨hge1, hge2⟩ :=
                        pyFind_take_ge t ['.'] (ec + 1 - c) (m : Int) hm (by positivity)
                      rw [hkeeps, hm]
                      exact Or.inr (Or.inr ⟨by positivity, by omega⟩))]
                rw [if_neg (by
                  intro hor
                  rcases hor with hh | ⟨hh1, hh2⟩
                  · rw [hkeeps] at hh
                    omega
                  · rcases pyFind_cases (t.take (ec + 1 - c)) ['(', '*'] with h2 | ⟨m, hm⟩
                    · rw [h2] at hh1
                      omega
                    · obtain ⟨hge1, hge2⟩ :=
                        pyFind_take_ge t ['(', '*'] (ec + 1 - c) (m : Int) hm (by positivity)
                      rw [hkeeps] at hh2
                      rw [hm] at hh1 hh2
                      exact hC3b ⟨by omega, by omega⟩)]
                rw [hkeeps, Int.toNat_ofNat]
                have hsim := _skip_str_sim buf sl sc l ec hsle hel fuel l (c + strN + 1)
                  (pl, pc) (posLe_trans hs (Or.inr ⟨rfl, by omega⟩)) hskip hple
                rw [← shiftCol_add2 sl sc l c strN 1 hscc] at hsim
                rw [hsim]
                have hstep : posLe (l, c) (l, c + strN + 1) := Or.inr ⟨rfl, by omega⟩
                exact ih pl pc (posLe_trans hs (posLe_trans hstep hmskip)) h
          · rename_i hC2
            have hgc := pyFind_ge_neg_one t ['(', '*']
            have hgs := pyFind_ge_neg_one t ['"']
            have hgd := pyFind_ge_neg_one t ['.']
            have hC2a : ¬ pyFind t ['.'] = -1 := fun hh => hC2 (Or.inl hh)
            have hC2b : ¬ (0 ≤ pyFind t ['(', '*'] ∧
                pyFind t ['(', '*'] < pyFind t ['.']) := fun hh => hC2 (Or.inr (Or.inl hh))
            have hC2c : ¬ (0 ≤ pyFind t ['"'] ∧
                pyFind t ['"'] < pyFind t ['.']) := fun hh => hC2 (Or.inr (Or.inr hh))
            obtain ⟨dN, hdN⟩ : ∃ n : Nat, pyFind t ['.'] = (n : Int) :=
              ⟨(pyFind t ['.']).toNat, by omega⟩
            obtain ⟨rest, hrest⟩ := singleton_prefix '.' (t.drop dN)
              (pyFind_head t ['.'] dN hdN)
            split at h
            · rename_i hT2
              injection h with h
              rw [Prod.mk.injEq] at h
              obtain ⟨hl2, hec⟩ := h
              rw [hdN, Int.toNat_ofNat] at hec
              have hkd : pyFind (t.take (ec + 1 - c)) ['.'] = (dN : Int) :=
                pyFind_keep_take t _ _ dN hdN (by simp; omega)
              rw [if_neg (by
                intro hall
                rw [hkd] at hall
                have := hall.2.1
                omega)]
              rw [if_neg (by
                intro hor
                rcases hor with hh | ⟨hh1, hh2⟩ | ⟨hh1, hh2⟩
                · rw [hkd] at hh
                  omega
                · rcases pyFind_cases (t.take (ec + 1 - c)) ['(', '*'] with h2 | ⟨m, hm⟩
                  · rw [h2] at hh1
                    omega
                  · obtain ⟨hge1, hge2⟩ :=
                      pyFind_take_ge t ['(', '*'] (ec + 1 - c) (m : Int) hm (by positivity)
                    rw [hkd] at hh2
                    rw [hm] at hh1 hh2
                    rw [hdN] at hC2b
                    exact hC2b ⟨by omega, by omega⟩
                · rcases pyFind_cases (t.take (ec + 1 - c)) ['"'] with h2 | ⟨m, hm⟩
                  · rw [h2] at hh1
                    omega
                  · obtain ⟨hge1, hge2⟩ :=
                      pyFind_take_ge t ['"'] (ec + 1 - c) (m : Int) hm (by positivity)
                    rw [hkd] at hh2
                    rw [hm] at hh1 hh2
                    rw [hdN] at hC2c
                    exact hC2c ⟨by omega, by omega⟩)]
              rw [hkd, Int.toNat_ofNat]
              rw [List.drop_take]
              have hk1 : ec + 1 - c - dN = 1 := by omega
              rw [hk1, hrest]
              rw [if_pos (Or.inl (by rfl))]
              rw [← hec, shiftCol_add sl sc l c dN hscc]
            · rename_i hT2
              split at h
              · rename_i hT3
                injection h with h
                rw [Prod.mk.injEq] at h
                obtain ⟨hl2, hec⟩ := h
                rw [hdN, Int.toNat_ofNat] at hec hT3 hT2
                have hkd : pyFind (t.take (ec + 1 - c)) ['.'] = (dN : Int) :=
                  pyFind_keep_take t _ _ dN hdN (by simp; omega)
                rw [if_neg (by
                  intro hall
                  rw [hkd] at hall
                  have := hall.2.1
                  omega)]
                rw [if_neg (by
                  intro hor
                  rcases hor with hh | ⟨hh1, hh2⟩ | ⟨hh1, hh2⟩
                  · rw [hkd] at hh
                    omega
                  · rcases pyFind_cases (t.take (ec + 1 - c)) ['(', '*'] with h2 | ⟨m, hm⟩
                    · rw [h2] at hh1
                      omega
                    · obtain ⟨hge1, hge2⟩ :=
                        pyFind_take_ge t ['(', '*'] (ec + 1 - c) (m : Int) hm (by positivity)
                      rw [hkd] at hh2
                      rw [hm] at hh1 hh2
                      rw [hdN] at hC2b
                      exact hC2b ⟨by omega, by omega⟩
                  · rcases pyFind_cases (t.take (ec + 1 - c)) ['"'] with h2 | ⟨m, hm⟩
                    · rw [h2] at hh1
                      omega
                    · obtain ⟨hge1, hge2⟩ :=
                        pyFind_take_ge t ['"'] (ec + 1 - c) (m : Int) hm (by positivity)
                      rw [hkd] at hh2
                      rw [hm] at hh1 hh2
                      rw [hdN] at hC2c
                      exact hC2c ⟨by omega, by omega⟩)]
                rw [hkd, Int.toNat_ofNat]
                rw [List.drop_take]
                have hk3 : ec + 1 - c - dN = 3 := by omega
                rw [hk3]
                rw [if_neg (by
                  rw [List.take_take]
                  have hmin : min 2 3 = 2 := by omega
                  rw [hmin]
                  exact hT2)]
                rw [if_pos (by
                  rw [List.take_take]
                  have hmin : min 3 3 = 3 := by omega
                  rw [hmin]
                  exact hT3)]
                rw [← hec, shiftCol_add2 sl sc l c dN 2 hscc]
              · rename_i hT3
                rw [hdN, Int.toNat_ofNat] at h hT3 hT2
                have hmono2 := _find_dot_after_mono fuel buf l (c + dN + 1) (l, ec) h
                have hd1 : c + dN + 1 ≤ ec := by
                  rcases hmono2 with hh | ⟨hh, hh2⟩ <;> omega
                have hkd : pyFind (t.take (ec + 1 - c)) ['.'] = (dN : Int) :=
                  pyFind_keep_take t _ _ dN hdN (by simp; omega)
                rw [if_neg (by
                  intro hall
                  rw [hkd] at hall
                  have := hall.2.1
                  omega)]
                rw [if_neg (by
                  intro hor
                  rcases hor with hh | ⟨hh1, hh2⟩ | ⟨hh1, hh2⟩
                  · rw [hkd] at hh
                    omega
                  · rcases pyFind_cases (t.take (ec + 1 - c)) ['(', '*'] with h2 | ⟨m, hm⟩
                    · rw [h2] at hh1
                      omega
                    · obtain ⟨hge1, hge2⟩ :=
                        pyFind_take_ge t ['(', '*'] (ec + 1 - c) (m : Int) hm (by positivity)
                      rw [hkd] at hh2
                      rw [hm] at hh1 hh2
                      rw [hdN] at hC2b
                      exact hC2b ⟨by omega, by omega⟩
                  · rcases pyFind_cases (t.take (ec + 1 - c)) ['"'] with h2 | ⟨m, hm⟩
                    · rw [h2] at hh1
                      omega
                    · obtain ⟨hge1, hge2⟩ :=
                        pyFind_take_ge t ['"'] (ec + 1 - c) (m : Int) hm (by positivity)
                      rw [hkd] at hh2
                      rw [hm] at hh1 hh2
                      rw [hdN] at hC2c
                      exact hC2c ⟨by omega, by omega⟩)]
                rw [hkd, Int.toNat_ofNat]
                rw [List.drop_take]
                rw [if_neg (by
                  rw [List.take_take]
                  have hmin : min 2 (ec + 1 - c - dN) = 2 := by omega
                  rw [hmin]
                  exact hT2)]
                rw [if_neg (by
                  rw [List.take_take]
                  by_cases hkk : 3 ≤ ec + 1 - c - dN
                  · have hmin : min 3 (ec + 1 - c - dN) = 3 := by omega
                    rw [hmin]
                    exact hT3
                  · have hmin : min 3 (ec + 1 - c - dN) = 2 := by omega
                    rw [hmin]
                    intro heq
                    have hlen := congrArg List.length heq
                    have hrlen : rest ≠ [] := by
                      intro hre
                      refine hT2 (Or.inl ?_)
                      rw [hrest, hre]
                      rfl
                    obtain ⟨y, rest2, hyr⟩ : ∃ y rest2, rest = y :: rest2 := by
                      rcases rest with _ | ⟨y, rest2⟩
                      · exact absurd rfl hrlen
                      · exact ⟨y, rest2, rfl⟩
                    rw [hrest, hyr] at hlen
                    simp at hlen)]
                have hrec := ih l (c + dN + 1)
                  (posLe_trans hs (Or.inr ⟨rfl, by omega⟩)) h
                rw [← shiftCol_add2 sl sc l c dN 1 hscc] at hrec
                exact hrec
      · have hllt : l < el := by omega
        have hsuffix := suffix_between_lt buf sl sc el ec hsle hel l c hsl hllt hscc
        rw [hsuffix]
        split at h
        · rename_i hC1
          rw [if_pos hC1]
          have hrec := ih (l + 1) 0 (Or.inl (by omega)) h
          rw [show l + 1 - sl = l - sl + 1 from by omega] at hrec
          rw [show shiftCol sl sc (l + 1) 0 = 0 from by
            unfold shiftCol
            rw [if_neg (by omega)]] at hrec
          exact hrec
        · rename_i hC1
          rw [if_neg hC1]
          split at h
          · rename_i hC2
            rw [if_pos hC2]
            split at h
            · rename_i hC3
              rw [if_pos hC3]
              split at h
              · exact absurd h (by simp)
              · rename_i p hskip
                obtain ⟨pl, pc⟩ := p
                have hple : posLe (pl, pc) (el, ec) :=
                  _find_dot_after_mono fuel buf pl pc (el, ec) h
                have hmskip := _skip_block_mono fuel buf l
                  (c + (pyFind ((lineAt buf l).drop c) ['(', '*']).toNat + 2) _ _ 1 (pl, pc) hskip
                have hsim := _skip_comment_sim buf sl sc el ec hsle hel fuel l
                  (c + (pyFind ((lineAt buf l).drop c) ['(', '*']).toNat + 2) (pl, pc)
                  (posLe_trans hs (Or.inr ⟨rfl, by omega⟩)) hskip hple
                rw [← shiftCol_add2 sl sc l c
                  (pyFind ((lineAt buf l).drop c) ['(', '*']).toNat 2 hscc] at hsim
                rw [hsim]
                have hstep : posLe (l, c)
                    (l, c + (pyFind ((lineAt buf l).drop c) ['(', '*']).toNat + 2) :=
                  Or.inr ⟨rfl, by omega⟩
                exact ih pl pc (posLe_trans hs (posLe_trans hstep hmskip)) h
            · rename_i hC3
              rw [if_neg hC3]
              split at h
              · exact absurd h (by simp)
              · rename_i p hskip
                obtain ⟨pl, pc⟩ := p
                have hple : posLe (pl, pc) (el, ec) :=
                  _find_dot_after_mono fuel buf pl pc (el, ec) h
                have hmskip := _skip_block_mono fuel buf l
                  (c + (pyFind ((lineAt buf l).drop c) ['"']).toNat + 1) _ _ 1 (pl, pc) hskip
                have hsim := _skip_str_sim buf sl sc el ec hsle hel fuel l
                  (c + (pyFind ((lineAt buf l).drop c) ['"']).toNat + 1) (pl, pc)
                  (posLe_trans hs (Or.inr ⟨rfl, by omega⟩)) hskip hple
                rw [← shiftCol_add2 sl sc l c
                  (pyFind ((lineAt buf l).drop c) ['"']).toNat 1 hscc] at hsim
                rw [hsim]
                have hstep : posLe (l, c)
                    (l, c + (pyFind ((lineAt buf l).drop c) ['"']).toNat + 1) :=
                  Or.inr ⟨rfl, by omega⟩
                exact ih pl pc (posLe_trans hs (posLe_trans hstep hmskip)) h
          · rename_i hC2
            rw [if_neg hC2]
            split at h
            · rename_i hT2
              injection h with h
              rw [Prod.mk.injEq] at h
              omega
            · rename_i hT2
              rw [if_neg hT2]
              split at h
              · rename_i hT3
                injection h with h
                rw [Prod.mk.injEq] at h
                omega
              · rename_i hT3
                rw [if_neg hT3]
                have hrec := ih l (c + (pyFind ((lineAt buf l).drop c) ['.']).toNat + 1)
                  (posLe_trans hs (Or.inr ⟨rfl, by omega⟩)) h
                rw [← shiftCol_add2 sl sc l c
                  (pyFind ((lineAt buf l).drop c) ['.']).toNat 1 hscc] at hrec
                exact hrec

theorem pyLstrip_cons_of_nonspace (x : Char) (r : List Char) (hx : isPySpace x = false) :
    pyLstrip (x :: r) = x :: r := by
  unfold pyLstrip
  rw [List.dropWhile_cons_of_neg (by simp [hx])]

theorem chunk_head_step (fuel : Nat) (buf : Doc) (l c w wc : Nat)
    (hws : skipWSAux (buf.drop l) l c = some (w, wc)) :
    chunk_head (fuel + 1) buf l c =
      (if (pyLstrip ((lineAt buf w).drop wc)).take 2 = ['(', '*'] then
        match _skip_comment fuel buf w (wc + 2) with
        | none => none
        | some p => chunk_head fuel buf p.1 p.2
      else some (w, wc)) := by
  simp only [chunk_head, hws]

theorem skipWS_drop_char (buf : Doc) :
    ∀ (n l c w wc : Nat), buf.length - l = n →
      skipWSAux (buf.drop l) l c = some (w, wc) →
      ∃ x r, (lineAt buf w).drop wc = x :: r ∧ isPySpace x = false := by
  intro n
  induction n with
  | zero =>
      intro l c w wc hn h
      rw [List.drop_eq_nil_of_le (by omega)] at h
      simp [skipWSAux] at h
  | succ n ih =>
      intro l c w wc hn h
      have hl : l < buf.length := by
        by_contra hc
        push_neg at hc
        rw [List.drop_eq_nil_of_le hc] at h
        simp [skipWSAux] at h
      rw [skipWSAux_step buf l c hl] at h
      split at h
      · rename_i hcond
        injection h with h
        rw [Prod.mk.injEq] at h
        obtain ⟨hw1, hw2⟩ := h
        subst hw1
        have hne : pyLstrip ((lineAt buf l).drop c) ≠ [] := by
          intro hnil
          refine hcond ?_
          rw [blank_iff]
          rw [pyLstrip_eq_nil_iff] at hnil
          exact hnil
        obtain ⟨x, r, hxr⟩ : ∃ x r, pyLstrip ((lineAt buf l).drop c) = x :: r := by
          rcases hh : pyLstrip ((lineAt buf l).drop c) with _ | ⟨x, r⟩
          · exact absurd hh hne
          · exact ⟨x, r, rfl⟩
        refine ⟨x, r, ?_, dropWhile_head_false _ x r hxr⟩
        rw [← hw2]
        rw [← List.drop_drop]
        rw [lstrip_count]
        rw [drop_lstrip_count]
        exact hxr
      · exact ih (l + 1) 0 w wc (by omega) h

theorem chunk_head_char (buf : Doc) :
    ∀ (fuel : Nat) (l c w wc : Nat),
      chunk_head fuel buf l c = some (w, wc) →
      ∃ x r, (lineAt buf w).drop wc = x :: r ∧ isPySpace x = false := by
  intro fuel
  induction fuel with
  | zero => intro l c w wc h; simp [chunk_head] at h
  | succ fuel ih =>
      intro l c w wc h
      simp only [chunk_head] at h
      split at h
      · exact absurd h (by simp)
      · rename_i wl0 wc0 hws
        split at h
        · split at h
          · exact absurd h (by simp)
          · exact ih _ _ w wc h
        · injection h with h
          rw [Prod.mk.injEq] at h
          obtain ⟨h1, h2⟩ := h
          subst h1
          subst h2
          exact skipWS_drop_char buf (buf.length - l) l c _ _ rfl hws

theorem take2_cons_take (x a b : Char) (s : List Char) (k : Nat)
    (h : (x :: s.take k).take 2 = [a, b]) : (x :: s).take 2 = [a, b] := by
  rcases s with _ | ⟨y, s2⟩
  · simp at h
  · rcases k with _ | k'
    · simp at h
    · simp only [List.take_succ_cons] at h ⊢
      simpa using h

theorem chunk_head_sim (buf : Doc) (sl sc el ec : Nat) (hsle : sl ≤ el)
    (hel : el < buf.length) :
    ∀ (fuel : Nat) (l c : Nat) (q : Pos),
      posLe (sl, sc) (l, c) →
      chunk_head fuel buf l c = some q →
      posLe q (el, ec) →
      chunk_head fuel (betweenLines buf (sl, sc) (el, ec)) (l - sl) (shiftCol sl sc l c) =
        some (q.1 - sl, shiftCol sl sc q.1 q.2) := by
  intro fuel
  induction fuel with
  | zero => intro l c q hs h hq; simp [chunk_head] at h
  | succ fuel ih =>
      intro l c q hs h hq
      simp only [chunk_head] at h
      split at h
      · exact absurd h (by simp)
      · rename_i wl wc hws
        have hwsm : posLe (l, c) (wl, wc) := skipWSAux_mono (buf.drop l) l c (wl, wc) hws
        have hsw : posLe (sl, sc) (wl, wc) := posLe_trans hs hwsm
        have hslwl : sl ≤ wl := by rcases hsw with hh | ⟨hh, _⟩ <;> omega
        have hwl_scc : wl = sl → sc ≤ wc := by
          intro hls
          rcases hsw with hh | ⟨hh, hh2⟩ <;> omega
        obtain ⟨x, r, hxr, hxs⟩ := skipWS_drop_char buf (buf.length - l) l c wl wc rfl hws
        have hlstrip : pyLstrip ((lineAt buf wl).drop wc) = x :: r := by
          rw [hxr]
          exact pyLstrip_cons_of_nonspace x r hxs
        split at h
        · rename_i hcond
          split at h
          · exact absurd h (by simp)
          · rename_i p hskip
            obtain ⟨pl, pc⟩ := p
            have hchm := chunk_head_mono fuel buf pl pc q h
            have hskm := _skip_block_mono fuel buf wl (wc + 2) _ _ 1 (pl, pc) hskip
            have hpq : posLe (pl, pc) (el, ec) := posLe_trans hchm hq
            have hwq : posLe (wl, wc) (el, ec) :=
              posLe_trans (Or.inr ⟨rfl, by omega⟩ : posLe (wl, wc) (wl, wc + 2))
                (posLe_trans hskm hpq)
            have hws' := skipWSAux_sim buf sl sc el ec hsle hel (buf.length - l) l c wl wc
              rfl hs hws hwq
            rw [chunk_head_step fuel (betweenLines buf (sl, sc) (el, ec)) (l - sl)
              (shiftCol sl sc l c) (wl - sl) (shiftCol sl sc wl wc) hws']
            have hcond2 : (x :: r).take 2 = ['(', '*'] := by
              rw [← hlstrip]
              exact hcond
            obtain ⟨r2, hxeq, hr2⟩ : ∃ r2, x = '(' ∧ r = '*' :: r2 := by
              rcases r with _ | ⟨y, r2⟩
              · exfalso
                have := congrArg List.length hcond2
                simp at this
              · simp only [List.take_succ_cons, List.take_zero] at hcond2
                injection hcond2 with hx1 hrest
                injection hrest with hy1 hrest2
                exact ⟨r2, hx1, by rw [hy1]⟩
            by_cases hwlim : wl = el
            · subst hwlim
              have hwc2 : wc + 2 ≤ ec := by
                rcases hskm with hh | ⟨hh, hh2⟩ <;> rcases hpq with h2 | ⟨h2, h3⟩ <;> omega
              have hsuffix := suffix_between_last buf sl sc wl ec hsle hel wc hwl_scc
              rw [hsuffix, hxr]
              rw [show (x :: r).take (ec + 1 - wc) = x :: r.take (ec - wc) from by
                rw [List.take_cons (by omega)]
                rw [show ec + 1 - wc - 1 = ec - wc from by omega]]
              rw [pyLstrip_cons_of_nonspace x _ hxs]
              rw [hxeq, hr2]
              rw [show ('*' :: r2).take (ec - wc) = '*' :: r2.take (ec - wc - 1) from by
                rw [List.take_cons (by omega)]]
              rw [if_pos (by rfl)]
              have hsim := _skip_comment_sim buf sl sc wl ec hsle hel fuel wl (wc + 2)
                (pl, pc)
                (posLe_trans hsw (Or.inr ⟨rfl, by omega⟩ : posLe (wl, wc) (wl, wc + 2)))
                hskip hpq
              rw [shiftCol_add sl sc wl wc 2 hwl_scc] at hsim
              rw [hsim]
              exact ih pl pc q
                (posLe_trans hsw
                  (posLe_trans (Or.inr ⟨rfl, by omega⟩ : posLe (wl, wc) (wl, wc + 2)) hskm))
                h hq
            · have hwllt : wl < el := by
                rcases hwq with hh | ⟨hh, _⟩ <;> omega
              have hsuffix := suffix_between_lt buf sl sc el ec hsle hel wl wc hslwl hwllt
                hwl_scc
              rw [hsuffix]
              rw [if_pos hcond]
              have hsim := _skip_comment_sim buf sl sc el ec hsle hel fuel wl (wc + 2)
                (pl, pc)
                (posLe_trans hsw (Or.inr ⟨rfl, by omega⟩ : posLe (wl, wc) (wl, wc + 2)))
                hskip hpq
              rw [shiftCol_add sl sc wl wc 2 hwl_scc] at hsim
              rw [hsim]
              exact ih pl pc q
                (posLe_trans hsw
                  (posLe_trans (Or.inr ⟨rfl, by omega⟩ : posLe (wl, wc) (wl, wc + 2)) hskm))
                h hq
        · rename_i hcond
          injection h with h
          subst h
          have hwq : posLe (wl, wc) (el, ec) := hq
          have hws' := skipWSAux_sim buf sl sc el ec hsle hel (buf.length - l) l c wl wc
            rfl hs hws hwq
          rw [chunk_head_step fuel (betweenLines buf (sl, sc) (el, ec)) (l - sl)
            (shiftCol sl sc l c) (wl - sl) (shiftCol sl sc wl wc) hws']
          have hcond2 : ¬ (x :: r).take 2 = ['(', '*'] := by
            rw [← hlstrip]
            exact hcond
          by_cases hwlim : wl = el
          · subst hwlim
            have hwc1 : wc ≤ ec := by
              rcases hwq with hh | ⟨hh, hh2⟩ <;> omega
            have hsuffix := suffix_between_last buf sl sc wl ec hsle hel wc hwl_scc
            rw [hsuffix, hxr]
            rw [show (x :: r).take (ec + 1 - wc) = x :: r.take (ec - wc) from by
              rw [List.take_cons (by omega)]
              rw [show ec + 1 - wc - 1 = ec - wc from by omega]]
            rw [pyLstrip_cons_of_nonspace x _ hxs]
            rw [if_neg (fun heq => hcond2 (take2_cons_take x '(' '*' r (ec - wc) heq))]
          · have hwllt : wl < el := by
              rcases hwq with hh | ⟨hh, _⟩ <;> omega
            have hsuffix := suffix_between_lt buf sl sc el ec hsle hel wl wc hslwl hwllt
              hwl_scc
            rw [hsuffix]
            rw [if_neg hcond]

/-- C8: re-scan round trip.  If the scanner on `buf` starting at `(sl, sc)`
produces a unit ending at `(el, ec)`, then running the scanner from the start
of the inclusive extraction `_between((sl, sc), (el, ec))` (its line-clipping
part `betweenLines`) yields the same stop, translated to the extracted text's
coordinates: line `el - sl`, and column `ec - sc` when the stop is on the
start line, `ec` otherwise. -/
theorem C8_rescan (fuel : Nat) (buf : Doc) (sl sc el ec : Nat)
    (h : _find_next_chunk fuel buf sl sc = some (el, ec)) :
    _find_next_chunk fuel (betweenLines buf (sl, sc) (el, ec)) 0 0 =
      some (el - sl, shiftCol sl sc el ec) := by
  have hmono := _find_next_chunk_mono fuel buf sl sc (el, ec) h
  have hsle : sl ≤ el := by rcases hmono with hh | ⟨hh, _⟩ <;> omega
  have hel : el < buf.length := _find_next_chunk_lt fuel buf sl sc (el, ec) h
  rcases hch : chunk_head fuel buf sl sc with _ | q
  · simp only [_find_next_chunk, hch] at h
    exact absurd h (by simp)
  · obtain ⟨wl, wc⟩ := q
    obtain ⟨x, r, hxr, hxs⟩ := chunk_head_char buf fuel sl sc wl wc hch
    have hlstrip : pyLstrip ((lineAt buf wl).drop wc) = x :: r := by
      rw [hxr]
      exact pyLstrip_cons_of_nonspace x r hxs
    simp only [_find_next_chunk, hch, hlstrip] at h
    have hchm : posLe (sl, sc) (wl, wc) := chunk_head_mono fuel buf sl sc (wl, wc) hch
    have hslwl : sl ≤ wl := by rcases hchm with hh | ⟨hh, _⟩ <;> omega
    have hwl_scc : wl = sl → sc ≤ wc := by
      intro hls
      rcases hchm with hh | ⟨hh, hh2⟩ <;> omega
    by_cases hb : x ∈ bullets
    · rw [if_pos hb] at h
      injection h with h
      rw [Prod.mk.injEq] at h
      obtain ⟨h1, h2⟩ := h
      subst h1
      subst h2
      have hsim := chunk_head_sim buf sl sc wl (wc + 1) hsle hel fuel sl sc (wl, wc)
        (Or.inr ⟨rfl, Nat.le_refl sc⟩) hch (Or.inr ⟨rfl, by omega⟩)
      rw [Nat.sub_self] at hsim
      rw [show shiftCol sl sc sl sc = 0 from by simp [shiftCol]] at hsim
      have hsuffix := suffix_between_last buf sl sc wl (wc + 1) hsle hel wc hwl_scc
      rw [show wc + 1 + 1 - wc = 2 from by omega, hxr, List.take_cons (by omega),
        show (2 : Nat) - 1 = 1 from by omega] at hsuffix
      simp only [_find_next_chunk, hsim, hsuffix,
        pyLstrip_cons_of_nonspace x (r.take 1) hxs]
      rw [if_pos hb, shiftCol_add sl sc wl wc 1 hwl_scc]
    · rw [if_neg hb] at h
      have hwq : posLe (wl, wc) (el, ec) := _find_dot_after_mono fuel buf wl wc (el, ec) h
      have hsim := chunk_head_sim buf sl sc el ec hsle hel fuel sl sc (wl, wc)
        (Or.inr ⟨rfl, Nat.le_refl sc⟩) hch hwq
      rw [Nat.sub_self] at hsim
      rw [show shiftCol sl sc sl sc = 0 from by simp [shiftCol]] at hsim
      have hdsim := _find_dot_after_sim buf sl sc el ec hsle hel fuel wl wc hchm h
      by_cases hwlim : wl = el
      · subst hwlim
        have hwcec : wc ≤ ec := by rcases hwq with hh | ⟨hh, hh2⟩ <;> omega
        have hsuffix := suffix_between_last buf sl sc wl ec hsle hel wc hwl_scc
        rw [hxr, List.take_cons (by omega),
          show ec + 1 - wc - 1 = ec - wc from by omega] at hsuffix
        simp only [_find_next_chunk, hsim, hsuffix,
          pyLstrip_cons_of_nonspace x (r.take (ec - wc)) hxs]
        rw [if_neg hb]
        exact hdsim
      · have hwllt : wl < el := by rcases hwq with hh | ⟨hh, _⟩ <;> omega
        have hsuffix := suffix_between_lt buf sl sc el ec hsle hel wl wc hslwl hwllt hwl_scc
        rw [hxr] at hsuffix
        simp only [_find_next_chunk, hsim, hsuffix,
          pyLstrip_cons_of_nonspace x r hxs]
        rw [if_neg hb]
        exact hdsim

/-- C8 witness: on the one-line document `Goal True.` the unit found from
`(0, 0)` ends at `(0, 9)`, and the re-scan of the extracted text from the
origin returns the same stop in extracted coordinates. -/
theorem C8_witness :
    _find_next_chunk 20 [strL "Goal True."] 0 0 = some (0, 9) ∧
      _find_next_chunk 20 (betweenLines [strL "Goal True."] (0, 0) (0, 9)) 0 0 =
        some (0 - 0, shiftCol 0 0 0 9) :=
  ⟨by decide, C8_rescan 20 [strL "Goal True."] 0 0 0 9 (by decide)⟩
